import Mathlib

/-!
Verification of the word-alignment and scoring engine of the
language-pronunciation-app repository (file embedded from the scoring
module in `src/unnamed/part_000`, lines 227-408: `normalizeText`,
`splitIntoWords`, `calculateWordSimilarity`, `MIN_SIMILARITY_THRESHOLD`,
`alignWords`, `calculateLevenshteinScores`).

Modelling conventions:
* JavaScript strings are indexed by UTF-16 code units; every character
  appearing in this program's domain (ASCII, Devanagari, Kannada) lies in
  the Basic Multilingual Plane, where UTF-16 code units coincide with
  Unicode scalar values, i.e. with Lean `Char`s.  Strings are therefore
  modelled as Lean `String` / `List Char`.
* JavaScript numbers are IEEE binary64 doubles.  Integer quantities
  (edit distances, lengths, per-word scores up to 100 and their sums) are
  exact in doubles and are modelled as ℕ.  The similarity percentage
  `(1 - distance / maxLength) * 100`, however, is computed by three
  inexact double operations; each is modelled faithfully by `roundDouble`
  below, binary64 round-to-nearest-even of the exact rational result (the
  values involved always lie in the normal range of binary64, so neither
  overflow nor subnormals arise).  `Math.round` (nearest integer, half
  toward +infinity, defined exactly on the argument's value) of an exact
  nonnegative quotient `a / b` is `mathRoundDiv` below; the aggregate
  score's single division `totalScore / length` is modelled this way
  because a correctly rounded double quotient of a sum of word scores
  (each at most 100) by a feasible word count rounds to the same integer
  as the exact quotient: exact half-integer quotients are exactly
  representable, and any other quotient with denominator `length` keeps a
  distance of at least `1/(2*length)` from the nearest half-integer,
  far above the rounding error of one division.
-/

/-- Unit-cost insert/delete/substitute edit distance between two lists of
characters: the embedding of `levenshtein.get` from the `fast-levenshtein`
package, which computes the Wagner-Fischer dynamic program with insertion
cost 1, deletion cost 1 and substitution cost 1 (0 on equal characters),
exactly the recurrences of `levenshtein Levenshtein.defaultCost`. -/
def levDist (a b : List Char) : ℕ :=
  levenshtein Levenshtein.defaultCost a b

/-- Embedding of `Math.round(a / b)` for a nonnegative integer numerator
`a` and positive integer denominator `b`: floor of `a / b + 1 / 2`,
written with integer division so that the kernel can evaluate it.
`mathRoundDiv_eq_round` proves it equal to Mathlib's `round` of the exact
rational quotient. -/
def mathRoundDiv (a b : ℕ) : ℕ :=
  (2 * a + b) / (2 * b)

/-- Floor base-2 logarithm by halving, with explicit fuel (the first
argument) so that the recursion is structural and the kernel can evaluate
it; `natLog2 n` supplies `n` itself as fuel, which always suffices. -/
def log2Aux : ℕ → ℕ → ℕ
  | 0, _ => 0
  | fuel + 1, n => if 2 ≤ n then log2Aux fuel (n / 2) + 1 else 0

/-- Floor base-2 logarithm of a natural number (0 at 0 and 1). -/
def natLog2 (n : ℕ) : ℕ :=
  log2Aux n n

/-- Decision of `a / b < 2 ^ k` for naturals `a`, `b` and an integer
exponent `k`, written with natural-number shifts so the kernel can
evaluate it. -/
def ratLtPow2 (a b : ℕ) (k : ℤ) : Bool :=
  if 0 ≤ k then decide (a < b * 2 ^ k.toNat) else decide (a * 2 ^ (-k).toNat < b)

/-- Binary exponent of the positive rational `a / b`: the integer `e` with
`2 ^ e ≤ a / b < 2 ^ (e + 1)`.  The difference of the floor base-2
logarithms of numerator and denominator overshoots by at most one, which
one comparison corrects. -/
def binExp (a b : ℕ) : ℤ :=
  let e0 : ℤ := (natLog2 a : ℤ) - (natLog2 b : ℤ)
  if ratLtPow2 a b e0 then e0 - 1 else e0

/-- Round the nonnegative rational `A / B` to the nearest natural number,
ties to even: the significand-rounding step of binary64 arithmetic. -/
def rdMantissa (A B : ℕ) : ℕ :=
  let n0 := A / B
  let r := A % B
  if 2 * r < B then n0
  else if B < 2 * r then n0 + 1
  else if n0 % 2 = 0 then n0 else n0 + 1

/-- IEEE-754 binary64 rounding (round to nearest, ties to even) of the
nonnegative rational `a / b`, returned as a numerator/denominator pair
whose denominator is a power of two.  The quotient is scaled by `2 ^
(52 - e)` into the significand range `[2 ^ 52, 2 ^ 53)` and rounded to an
integer there.  Overflow and subnormals are not modelled: every value this
development feeds to `roundDouble` lies in the normal range (quotients
`distance / maxLength` are at least `2 ^ -53` for any JavaScript string,
and all pipeline values stay below `2 ^ 7`). -/
def roundDouble (a b : ℕ) : ℕ × ℕ :=
  let e := binExp a b
  if e ≤ 52 then
    let k := (52 - e).toNat
    (rdMantissa (a * 2 ^ k) b, 2 ^ k)
  else
    let k := (e - 52).toNat
    (rdMantissa a (b * 2 ^ k) * 2 ^ k, 1)

/-- The binary64 evaluation of
`Math.round(Math.max(0, (1 - distance / maxLength) * 100))` performed by
`calculateWordSimilarity` for a nonzero `maxLength`, step by step:
`t1` is the double quotient `distance / maxLength` (both operands are
integers below `2 ^ 53`, hence exact); the subtraction `1 - t1` has the
exact value `(t1.2 - t1.1) / t1.2` and rounds to the double `t2`; the
product `t2 * 100` has the exact value `100 * t2.1 / t2.2` and rounds to
the double `t3`; `Math.max(0, t3)` is `t3` itself since `t3 ≥ 0`, and
`Math.round`, defined exactly on the double's value, is `mathRoundDiv`.
When `t1 ≥ 1` the exact difference `1 - t1` is `≤ 0`, so its rounding,
the product by 100 and the clamp `Math.max(0, ·)` yield 0: that branch
returns 0 directly. -/
def simRound (distance maxLength : ℕ) : ℕ :=
  let t1 := roundDouble distance maxLength
  if t1.2 ≤ t1.1 then 0
  else
    let t2 := roundDouble (t1.2 - t1.1) t1.2
    let t3 := roundDouble (100 * t2.1) t2.2
    mathRoundDiv t3.1 t3.2

/-- Embedding of `calculateWordSimilarity` (source lines 247-256):
`distance = levenshtein.get(word1, word2)`, `maxLength` the maximum of the
two lengths, result `100` if `maxLength === 0` and otherwise
`Math.round(Math.max(0, (1 - distance / maxLength) * 100))` evaluated in
binary64 double arithmetic (`simRound`).  The double evaluation agrees
with exact rational rounding for every `maxLength` below 40
(`simRound_eq_exact_of_lt_40`) but not universally:
`C5_counterexample_ieee_rounding` exhibits distance 17 over maxLength 40,
where the double product is just below 57.5 and the program returns 57
while exact rounding gives 58. -/
def calculateWordSimilarity (word1 word2 : String) : ℕ :=
  let distance := levDist word1.data word2.data
  let maxLength := max word1.length word2.length
  if maxLength = 0 then 100
  else simRound distance maxLength

theorem mathRoundDiv_eq_round (a b : ℕ) (hb : b ≠ 0) :
    (mathRoundDiv a b : ℤ) = round ((a : ℚ) / b) := by
  have hb0 : (0:ℚ) < (b : ℚ) := by positivity
  have h2b : (0:ℚ) < 2 * (b : ℚ) := by positivity
  rw [round_eq]
  have hx : (a : ℚ) / b + 1 / 2 = ((2 * a + b : ℕ) : ℚ) / ((2 * b : ℕ) : ℚ) := by
    push_cast
    field_simp
    ring
  rw [hx]
  symm
  rw [Int.floor_eq_iff]
  push_cast
  have hdm := Nat.div_add_mod (2 * a + b) (2 * b)
  have hmod : (2 * a + b) % (2 * b) < 2 * b := Nat.mod_lt _ (by omega)
  constructor
  · rw [le_div_iff₀ (by positivity)]
    have hle : (2 * b) * mathRoundDiv a b ≤ 2 * a + b := by
      unfold mathRoundDiv
      omega
    calc ((mathRoundDiv a b : ℚ)) * (2 * b)
        = (((2 * b) * mathRoundDiv a b : ℕ) : ℚ) := by push_cast; ring
      _ ≤ ((2 * a + b : ℕ) : ℚ) := by exact_mod_cast Nat.cast_le.mpr hle
      _ = 2 * (a:ℚ) + b := by push_cast; ring
  · rw [div_lt_iff₀ (by positivity)]
    have hlt : 2 * a + b < (2 * b) * mathRoundDiv a b + 2 * b := by
      unfold mathRoundDiv
      omega
    calc (2 * (a:ℚ) + b) = ((2 * a + b : ℕ) : ℚ) := by push_cast; ring
      _ < (((2 * b) * mathRoundDiv a b + 2 * b : ℕ) : ℚ) := by exact_mod_cast Nat.cast_lt.mpr hlt
      _ = ((mathRoundDiv a b : ℚ) + 1) * (2 * b) := by push_cast; ring

/-- With fuel at least the argument, the halving logarithm satisfies the
two floor-log bounds. -/
theorem log2Aux_bounds : ∀ (fuel n : ℕ), n ≤ fuel →
    (n ≠ 0 → 2 ^ log2Aux fuel n ≤ n) ∧ n < 2 ^ (log2Aux fuel n + 1) := by
  intro fuel
  induction fuel with
  | zero =>
      intro n hn
      have hn0 : n = 0 := Nat.le_zero.mp hn
      subst hn0
      exact ⟨fun h => absurd rfl h, by simp [log2Aux]⟩
  | succ f ih =>
      intro n hn
      by_cases h2 : 2 ≤ n
      · have hrec : n / 2 ≤ f := by omega
        obtain ⟨ihl, ihu⟩ := ih (n / 2) hrec
        have hhalf : n / 2 ≠ 0 := by omega
        have hl := ihl hhalf
        have hstep : log2Aux (f + 1) n = log2Aux f (n / 2) + 1 := by
          simp [log2Aux, h2]
        constructor
        · intro _
          rw [hstep, pow_succ]
          have : 2 ^ log2Aux f (n / 2) * 2 ≤ (n / 2) * 2 := Nat.mul_le_mul_right 2 hl
          omega
        · rw [hstep]
          have he : 2 ^ (log2Aux f (n / 2) + 1 + 1) = 2 ^ (log2Aux f (n / 2) + 1) * 2 :=
            pow_succ 2 _
          omega
      · have hstep : log2Aux (f + 1) n = 0 := by
          simp [log2Aux, h2]
        rw [hstep]
        refine ⟨fun hne => ?_, by omega⟩
        have : n = 1 := by omega
        omega

/-- `2 ^ natLog2 n ≤ n` for nonzero `n`. -/
theorem natLog2_self_le {n : ℕ} (h : n ≠ 0) : 2 ^ natLog2 n ≤ n :=
  (log2Aux_bounds n n le_rfl).1 h

/-- `n < 2 ^ (natLog2 n + 1)`. -/
theorem lt_natLog2_self (n : ℕ) : n < 2 ^ (natLog2 n + 1) :=
  (log2Aux_bounds n n le_rfl).2

/-- The denominator produced by binary64 rounding is positive. -/
theorem roundDouble_den_pos (a b : ℕ) : 0 < (roundDouble a b).2 := by
  unfold roundDouble
  dsimp only
  split_ifs
  · exact Nat.two_pow_pos _
  · exact Nat.one_pos

/-- Rounding the significand never falls below zero trivially and exceeds
the exact scaled quotient by less than one unit: `rdMantissa A B * B ≤ A + B`. -/
theorem rdMantissa_le (A B : ℕ) : rdMantissa A B * B ≤ A + B := by
  unfold rdMantissa
  dsimp only
  split_ifs
  · exact le_trans (Nat.div_mul_le_self A B) (Nat.le_add_right A B)
  · rw [Nat.add_mul, one_mul]
    exact Nat.add_le_add_right (Nat.div_mul_le_self A B) B
  · exact le_trans (Nat.div_mul_le_self A B) (Nat.le_add_right A B)
  · rw [Nat.add_mul, one_mul]
    exact Nat.add_le_add_right (Nat.div_mul_le_self A B) B

/-- Rounding zero gives numerator zero. -/
theorem rdMantissa_zero (B : ℕ) : rdMantissa 0 B = 0 := by
  unfold rdMantissa
  dsimp only
  rw [Nat.zero_div, Nat.zero_mod]
  split_ifs <;> omega

/-- The binary64 rounding of zero is zero. -/
theorem roundDouble_zero_num (b : ℕ) : (roundDouble 0 b).1 = 0 := by
  unfold roundDouble
  dsimp only
  split_ifs
  · rw [Nat.zero_mul, rdMantissa_zero]
  · rw [rdMantissa_zero, Nat.zero_mul]

/-- The binary64 rounding of `a / a` for nonzero `a` is exactly one,
delivered with the significand-range denominator `2 ^ 52`. -/
theorem roundDouble_self_pair (a : ℕ) (ha : a ≠ 0) :
    roundDouble a a = (2 ^ 52, 2 ^ 52) := by
  have ha0 : 0 < a := Nat.pos_of_ne_zero ha
  have h1 : ratLtPow2 a a 0 = false := by
    unfold ratLtPow2
    rw [if_pos le_rfl]
    simp
  have he0 : binExp a a = 0 := by
    unfold binExp
    dsimp only
    rw [sub_self, h1]
    simp
  unfold roundDouble
  dsimp only
  rw [he0]
  rw [if_pos (by norm_num : (0:ℤ) ≤ 52)]
  have hk : ((52:ℤ) - 0).toNat = 52 := by decide
  rw [hk]
  have hdiv : a * 2 ^ 52 / a = 2 ^ 52 := Nat.mul_div_cancel_left _ ha0
  have hmod : a * 2 ^ 52 % a = 0 := Nat.mul_mod_right a _
  unfold rdMantissa
  dsimp only
  rw [hdiv, hmod]
  rw [if_pos (by omega : 2 * 0 < a)]

/-- Crude one-sided error bound of binary64 rounding: the rounded value is
at most the exact quotient scaled by `1 + 2 ^ -50` (stated multiplied out
over ℕ; the true bound is `1 + 2 ^ -53`, and this slack costs nothing
downstream). -/
theorem roundDouble_le (a b : ℕ) (hb : b ≠ 0) :
    (roundDouble a b).1 * (b * 2 ^ 50) ≤ a * ((roundDouble a b).2 * (2 ^ 50 + 1)) := by
  rcases Nat.eq_zero_or_pos a with rfl | ha0
  · rw [roundDouble_zero_num, Nat.zero_mul]
    exact Nat.zero_le _
  have hb0q : (0:ℚ) < (b : ℚ) := by
    have := Nat.pos_of_ne_zero hb
    exact_mod_cast this
  have ha0q : (0:ℚ) < (a : ℚ) := by exact_mod_cast ha0
  -- the computed exponent never overshoots the floor-log difference
  have he_le : binExp a b ≤ (natLog2 a : ℤ) - (natLog2 b : ℤ) := by
    unfold binExp
    dsimp only
    split_ifs <;> omega
  -- hence 2 ^ (e - 2) * b ≤ a over ℚ
  have hla : 2 ^ natLog2 a ≤ a := natLog2_self_le ha0.ne'
  have hlb : b < 2 ^ (natLog2 b + 1) := lt_natLog2_self b
  have hlaq : ((2:ℚ)) ^ natLog2 a ≤ (a : ℚ) := by exact_mod_cast hla
  have hlbq : (b : ℚ) < (2:ℚ) ^ (natLog2 b + 1) := by exact_mod_cast hlb
  have hcross : (2:ℚ) ^ natLog2 a * b < (a:ℚ) * 2 ^ (natLog2 b + 1) := by
    nlinarith [mul_pos ha0q (sub_pos.mpr hlbq),
      mul_nonneg (sub_nonneg.mpr hlaq) hb0q.le]
  have h2ne : ((2:ℚ)) ≠ 0 := by norm_num
  have hE0 : (2:ℚ) ^ ((natLog2 a : ℤ) - ((natLog2 b : ℤ) + 1)) * b < (a:ℚ) := by
    rw [zpow_sub₀ h2ne, div_mul_eq_mul_div, div_lt_iff₀ (by positivity)]
    calc (2:ℚ) ^ (natLog2 a : ℤ) * b = 2 ^ natLog2 a * b := by
          rw [zpow_natCast]
      _ < (a:ℚ) * 2 ^ (natLog2 b + 1) := hcross
      _ = (a:ℚ) * 2 ^ ((natLog2 b : ℤ) + 1) := by
          rw [show ((natLog2 b : ℤ) + 1) = ((natLog2 b + 1 : ℕ) : ℤ) by push_cast; ring,
            zpow_natCast]
  have hE : (2:ℚ) ^ (binExp a b - 2) * b ≤ (a : ℚ) := by
    have h3 : (2:ℚ) ^ (binExp a b - 2) ≤ 2 ^ ((natLog2 a : ℤ) - ((natLog2 b : ℤ) + 1)) :=
      zpow_le_zpow_right₀ (by norm_num) (by omega)
    have h4 : (2:ℚ) ^ (binExp a b - 2) * b ≤ 2 ^ ((natLog2 a : ℤ) - ((natLog2 b : ℤ) + 1)) * b :=
      mul_le_mul_of_nonneg_right h3 hb0q.le
    exact h4.trans hE0.le
  unfold roundDouble
  dsimp only
  split_ifs with he52
  · -- subunit case: scale up by 2 ^ (52 - e)
    have hk_int : (((52 - binExp a b).toNat : ℕ) : ℤ) = 52 - binExp a b :=
      Int.toNat_of_nonneg (by omega)
    have hsum : (2:ℚ) ^ (binExp a b - 2) * (2:ℚ) ^ (((52 - binExp a b).toNat : ℕ) : ℤ)
        = (2:ℚ) ^ ((50 : ℕ) : ℤ) := by
      rw [← zpow_add₀ h2ne]
      congr 1
      omega
    have h6 : (2:ℚ) ^ (binExp a b - 2) * b * (2:ℚ) ^ (((52 - binExp a b).toNat : ℕ) : ℤ)
        ≤ (a:ℚ) * (2:ℚ) ^ (((52 - binExp a b).toNat : ℕ) : ℤ) :=
      mul_le_mul_of_nonneg_right hE (by positivity)
    have h8 : (b:ℚ) * (2:ℚ) ^ (50:ℕ) ≤ (a:ℚ) * (2:ℚ) ^ ((52 - binExp a b).toNat) := by
      calc (b:ℚ) * (2:ℚ) ^ (50:ℕ)
          = (2:ℚ) ^ (binExp a b - 2) * b * (2:ℚ) ^ (((52 - binExp a b).toNat : ℕ) : ℤ) := by
            rw [show ((2:ℚ) ^ (50:ℕ)) = (2:ℚ) ^ ((50 : ℕ) : ℤ) from (zpow_natCast 2 50).symm,
              ← hsum]
            ring
        _ ≤ (a:ℚ) * (2:ℚ) ^ (((52 - binExp a b).toNat : ℕ) : ℤ) := h6
        _ = (a:ℚ) * (2:ℚ) ^ ((52 - binExp a b).toNat) := by
            rw [zpow_natCast]
    have hF : b * 2 ^ 50 ≤ a * 2 ^ (52 - binExp a b).toNat := by
      exact_mod_cast h8
    have hn := rdMantissa_le (a * 2 ^ (52 - binExp a b).toNat) b
    calc rdMantissa (a * 2 ^ (52 - binExp a b).toNat) b * (b * 2 ^ 50)
        = (rdMantissa (a * 2 ^ (52 - binExp a b).toNat) b * b) * 2 ^ 50 := by ring
      _ ≤ (a * 2 ^ (52 - binExp a b).toNat + b) * 2 ^ 50 := Nat.mul_le_mul_right _ hn
      _ = a * 2 ^ (52 - binExp a b).toNat * 2 ^ 50 + b * 2 ^ 50 := by ring
      _ ≤ a * 2 ^ (52 - binExp a b).toNat * 2 ^ 50 + a * 2 ^ (52 - binExp a b).toNat := by
          omega
      _ = a * (2 ^ (52 - binExp a b).toNat * (2 ^ 50 + 1)) := by ring
  · -- superunit case: scale down by 2 ^ (e - 52)
    have hk_int : (((binExp a b - 52).toNat : ℕ) : ℤ) = binExp a b - 52 :=
      Int.toNat_of_nonneg (by omega)
    have hsum : (2:ℚ) ^ (((binExp a b - 52).toNat : ℕ) : ℤ) * (2:ℚ) ^ ((50 : ℕ) : ℤ)
        = (2:ℚ) ^ (binExp a b - 2) := by
      rw [← zpow_add₀ h2ne]
      congr 1
      omega
    have h8 : (b:ℚ) * (2:ℚ) ^ ((binExp a b - 52).toNat) * (2:ℚ) ^ (50:ℕ) ≤ (a:ℚ) := by
      calc (b:ℚ) * (2:ℚ) ^ ((binExp a b - 52).toNat) * (2:ℚ) ^ (50:ℕ)
          = (2:ℚ) ^ (((binExp a b - 52).toNat : ℕ) : ℤ) * (2:ℚ) ^ ((50 : ℕ) : ℤ) * b := by
            rw [zpow_natCast, zpow_natCast]
            ring
        _ = (2:ℚ) ^ (binExp a b - 2) * b := by rw [hsum]
        _ ≤ (a:ℚ) := hE
    have hF : b * 2 ^ (binExp a b - 52).toNat * 2 ^ 50 ≤ a := by
      exact_mod_cast h8
    have hn := rdMantissa_le a (b * 2 ^ (binExp a b - 52).toNat)
    calc rdMantissa a (b * 2 ^ (binExp a b - 52).toNat) * 2 ^ (binExp a b - 52).toNat
          * (b * 2 ^ 50)
        = (rdMantissa a (b * 2 ^ (binExp a b - 52).toNat)
            * (b * 2 ^ (binExp a b - 52).toNat)) * 2 ^ 50 := by ring
      _ ≤ (a + b * 2 ^ (binExp a b - 52).toNat) * 2 ^ 50 := Nat.mul_le_mul_right _ hn
      _ = a * 2 ^ 50 + b * 2 ^ (binExp a b - 52).toNat * 2 ^ 50 := by ring
      _ ≤ a * 2 ^ 50 + a := by omega
      _ = a * (1 * (2 ^ 50 + 1)) := by ring

/-- The binary64 similarity computation never exceeds 100: each rounding
inflates its operand by a factor of at most `1 + 2 ^ -50`, so the final
value stays strictly below 100.5 and `Math.round` keeps it at or below
100. -/
theorem simRound_le_100 (d L : ℕ) : simRound d L ≤ 100 := by
  unfold simRound
  dsimp only
  split_ifs with h1
  · omega
  · have hp1pos : 0 < (roundDouble d L).2 := roundDouble_den_pos d L
    have h2 := roundDouble_le ((roundDouble d L).2 - (roundDouble d L).1) (roundDouble d L).2
      hp1pos.ne'
    set n1 := (roundDouble d L).1 with hn1
    set p1 := (roundDouble d L).2 with hp1
    set n2 := (roundDouble (p1 - n1) p1).1 with hn2
    set p2 := (roundDouble (p1 - n1) p1).2 with hp2
    have hp2pos : 0 < p2 := roundDouble_den_pos _ _
    have hm : p1 - n1 ≤ p1 := Nat.sub_le _ _
    have hstar : n2 * 2 ^ 50 ≤ p2 * (2 ^ 50 + 1) := by
      have h3 : n2 * (p1 * 2 ^ 50) ≤ p1 * (p2 * (2 ^ 50 + 1)) :=
        le_trans h2 (Nat.mul_le_mul_right _ hm)
      have h4 : p1 * (n2 * 2 ^ 50) ≤ p1 * (p2 * (2 ^ 50 + 1)) := by
        calc p1 * (n2 * 2 ^ 50) = n2 * (p1 * 2 ^ 50) := by ring
          _ ≤ p1 * (p2 * (2 ^ 50 + 1)) := h3
      exact Nat.le_of_mul_le_mul_left h4 hp1pos
    have h5 := roundDouble_le (100 * n2) p2 hp2pos.ne'
    set n3 := (roundDouble (100 * n2) p2).1 with hn3
    set p3 := (roundDouble (100 * n2) p2).2 with hp3
    have hp3pos : 0 < p3 := roundDouble_den_pos _ _
    have h6 : p2 * (n3 * 2 ^ 100) ≤ p2 * (100 * (2 ^ 50 + 1) ^ 2 * p3) := by
      calc p2 * (n3 * 2 ^ 100) = (n3 * (p2 * 2 ^ 50)) * 2 ^ 50 := by ring
        _ ≤ (100 * n2 * (p3 * (2 ^ 50 + 1))) * 2 ^ 50 := Nat.mul_le_mul_right _ h5
        _ = (n2 * 2 ^ 50) * (100 * p3 * (2 ^ 50 + 1)) := by ring
        _ ≤ (p2 * (2 ^ 50 + 1)) * (100 * p3 * (2 ^ 50 + 1)) := Nat.mul_le_mul_right _ hstar
        _ = p2 * (100 * (2 ^ 50 + 1) ^ 2 * p3) := by ring
    have h7 : n3 * 2 ^ 100 ≤ 100 * (2 ^ 50 + 1) ^ 2 * p3 :=
      Nat.le_of_mul_le_mul_left h6 hp2pos
    have h9 : 2 ^ 100 * (2 * n3) < 2 ^ 100 * (201 * p3) := by
      have hc : 200 * (2 ^ 50 + 1) ^ 2 * p3 < 201 * 2 ^ 100 * p3 := by
        have hcc : 200 * (2 ^ 50 + 1) ^ 2 < 201 * 2 ^ 100 := by norm_num
        exact Nat.mul_lt_mul_of_lt_of_le hcc le_rfl hp3pos
      calc 2 ^ 100 * (2 * n3) = 2 * (n3 * 2 ^ 100) := by ring
        _ ≤ 2 * (100 * (2 ^ 50 + 1) ^ 2 * p3) := Nat.mul_le_mul_left _ h7
        _ = 200 * (2 ^ 50 + 1) ^ 2 * p3 := by ring
        _ < 201 * 2 ^ 100 * p3 := hc
        _ = 2 ^ 100 * (201 * p3) := by ring
    have h10 : 2 * n3 < 201 * p3 := Nat.lt_of_mul_lt_mul_left h9
    unfold mathRoundDiv
    have h12 : 2 * n3 + p3 < 101 * (2 * p3) := by omega
    have h13 := (Nat.div_lt_iff_lt_mul (by omega : 0 < 2 * p3)).mpr h12
    omega

/-- The binary64 pipeline maps distance zero to similarity 100: the
quotient `0 / maxLength` is exactly zero, `1 - 0` exactly one, and the
product and rounding of 100 are exact. -/
theorem simRound_zero (L : ℕ) : simRound 0 L = 100 := by
  unfold simRound
  dsimp only
  rw [roundDouble_zero_num L]
  rw [if_neg (not_le.mpr (roundDouble_den_pos 0 L))]
  rw [Nat.sub_zero]
  rw [roundDouble_self_pair _ (roundDouble_den_pos 0 L).ne']
  decide

set_option maxRecDepth 10000 in
set_option maxHeartbeats 1000000 in
/-- Below maxLength 40 the binary64 evaluation coincides with exact
rational rounding of `(maxLength - distance) * 100 / maxLength`, checked
exhaustively over all 819 distance/maxLength pairs; maxLength 40 with
distance 17 is the first divergence. -/
theorem simRound_eq_exact_of_lt_40 :
    ∀ L < 40, 0 < L → ∀ d < L + 1, simRound d L = mathRoundDiv ((L - d) * 100) L := by
  decide

/-- Edit distance of a list with itself is zero. -/
theorem levDist_self (a : List Char) : levDist a a = 0 := by
  induction a with
  | nil => simp [levDist, levenshtein_nil_nil]
  | cons x xs ih =>
      unfold levDist at *
      rw [levenshtein_cons_cons]
      have hsub : Levenshtein.defaultCost.substitute x x = (0:ℕ) := by
        simp [Levenshtein.defaultCost]
      rw [hsub, ih]
      simp

/-- Edit distance is at most the greater of the two lengths. -/
theorem levDist_le_max (a b : List Char) : levDist a b ≤ max a.length b.length := by
  induction a generalizing b with
  | nil =>
      induction b with
      | nil => simp [levDist, levenshtein_nil_nil]
      | cons y ys ihb =>
          unfold levDist at *
          rw [levenshtein_nil_cons]
          have h1 : Levenshtein.defaultCost.insert y = (1:ℕ) := rfl
          rw [h1]
          simp only [List.length_nil, List.length_cons] at ihb ⊢
          omega
  | cons x xs ih =>
      induction b with
      | nil =>
          unfold levDist at *
          rw [levenshtein_cons_nil]
          have h1 : Levenshtein.defaultCost.delete x = (1:ℕ) := rfl
          rw [h1]
          have h2 := ih []
          simp only [List.length_nil, List.length_cons] at h2 ⊢
          omega
      | cons y ys ihb =>
          unfold levDist at *
          rw [levenshtein_cons_cons]
          have h3 : levenshtein Levenshtein.defaultCost xs ys ≤ max xs.length ys.length := ih ys
          have hsub : Levenshtein.defaultCost.substitute x y ≤ 1 := by
            simp only [Levenshtein.defaultCost]
            split <;> omega
          have : Levenshtein.defaultCost.substitute x y + levenshtein Levenshtein.defaultCost xs ys
              ≤ max (x :: xs).length (y :: ys).length := by
            simp only [List.length_cons]
            omega
          exact le_trans (le_trans (min_le_right _ _) (min_le_right _ _)) this

/-- Word similarity never exceeds 100. -/
theorem calculateWordSimilarity_le_100 (a b : String) : calculateWordSimilarity a b ≤ 100 := by
  unfold calculateWordSimilarity
  dsimp only
  split_ifs with h0
  · exact le_refl 100
  · exact simRound_le_100 _ _

/-- A word is 100% similar to itself. -/
theorem calculateWordSimilarity_self (w : String) : calculateWordSimilarity w w = 100 := by
  unfold calculateWordSimilarity
  dsimp only
  rw [levDist_self]
  by_cases h : max w.length w.length = 0
  · rw [if_pos h]
  · rw [if_neg h]
    exact simRound_zero _

/-- Whitespace test of the JavaScript regular-expression class `\s` (and of
`String.prototype.trim`): space, tab, line feed, vertical tab, form feed,
carriage return, NBSP, and the Unicode space separators. -/
def isWsChar (c : Char) : Bool :=
  c = ' ' ∨ c = '\t' ∨ c = '\n' ∨ c.toNat = 0x0B ∨ c.toNat = 0x0C ∨ c = '\r' ∨
  c.toNat = 0xA0 ∨ c.toNat = 0x1680 ∨ (0x2000 ≤ c.toNat ∧ c.toNat ≤ 0x200A) ∨
  c.toNat = 0x2028 ∨ c.toNat = 0x2029 ∨ c.toNat = 0x202F ∨ c.toNat = 0x205F ∨
  c.toNat = 0x3000 ∨ c.toNat = 0xFEFF

/-- Membership in the punctuation class `[।,\.!?;:\-]` removed by
`normalizeText` (source line 234): danda, comma, period, exclamation,
question mark, semicolon, colon, hyphen. -/
def isPunctChar (c : Char) : Bool :=
  c = '।' ∨ c = ',' ∨ c = '.' ∨ c = '!' ∨ c = '?' ∨ c = ';' ∨ c = ':' ∨ c = '-'

/-- Model of `String.prototype.normalize('NFC')` restricted to the
repertoire this program processes (ASCII plus Devanagari and Kannada).
On that repertoire NFC acts only on the Devanagari nukta letters:
* the eight precomposed letters U+0958-U+095F (क़ ख़ ग़ ज़ ड़ ढ़ फ़ य़) are
  composition exclusions, so NFC replaces each by its canonical
  decomposition, base consonant followed by nukta U+093C (this is how the
  source makes a precomposed ज़ equal to ज plus nukta);
* the three precomposed letters U+0929 (ऩ), U+0931 (ऱ) and U+0934 (ऴ) are
  not excluded, so NFC keeps them precomposed and, conversely, composes
  the decomposed pairs न+़, र+़ and ळ+़ into them;
* every other character of the repertoire has no canonical decomposition
  and composes with nothing, so it is left unchanged.
Canonical reordering and blocking of combining-mark runs, irrelevant to
text already in canonical order, is not modelled.
`nfcDecompositions` maps each excluded precomposed letter to its base
consonant. -/
def nfcDecompositions : List (Char × Char) :=
  [('क़', 'क'), ('ख़', 'ख'), ('ग़', 'ग'), ('ज़', 'ज'),
   ('ड़', 'ड'), ('ढ़', 'ढ'), ('फ़', 'फ'), ('य़', 'य')]

/-- The non-excluded base consonants न, र and ळ, mapped to the precomposed
letters ऩ, ऱ and ऴ that NFC composes them into when a nukta follows
directly. -/
def nfcCompositions : List (Char × Char) :=
  [('न', 'ऩ'), ('र', 'ऱ'), ('ळ', 'ऴ')]

/-- The NFC model as a transducer over the character list: an excluded
precomposed nukta letter decomposes into base consonant plus nukta
U+093C; a composable base consonant directly followed by a nukta composes
into its precomposed letter; every other character passes through. -/
def nfcChars : List Char → List Char
  | [] => []
  | [c] =>
    match nfcDecompositions.find? (fun e => decide (e.1 = c)) with
    | some e => [e.2, '़']
    | none => [c]
  | c :: d :: rest =>
    match nfcDecompositions.find? (fun e => decide (e.1 = c)) with
    | some e => e.2 :: '़' :: nfcChars (d :: rest)
    | none =>
      match nfcCompositions.find? (fun e => decide (e.1 = c)) with
      | some e => if d = '़' then e.2 :: nfcChars rest else c :: nfcChars (d :: rest)
      | none => c :: nfcChars (d :: rest)

/-- A character is NFC-fixed when the model gives it no canonical
decomposition, i.e. it has no entry in the exclusion table. -/
def nfcFixedChar (c : Char) : Bool :=
  (nfcDecompositions.find? (fun e => decide (e.1 = c))).isNone

/-- A base consonant that NFC composes with a directly following nukta. -/
def isCompBase (c : Char) : Bool :=
  (nfcCompositions.find? (fun e => decide (e.1 = c))).isSome

/-- Adjacent-pair relation of NFC-normal text: no composable base
consonant directly followed by a nukta. -/
def noCompPair (a b : Char) : Prop :=
  ¬ (isCompBase a = true ∧ b = '़')

/-- Replacement performed by `.replace(/[।,\.!?;:\-]/g, " ")`. -/
def punctToSpace (c : Char) : Char :=
  if isPunctChar c then ' ' else c

/-- State machine for `.replace(/\s+/g, " ")`: each maximal run of
whitespace characters becomes a single space.  The flag records whether
the previous character was part of a whitespace run. -/
def collapseWsAux : Bool → List Char → List Char
  | _, [] => []
  | prevWs, c :: rest =>
    if isWsChar c then
      if prevWs then collapseWsAux true rest
      else ' ' :: collapseWsAux true rest
    else c :: collapseWsAux false rest

/-- Embedding of `.replace(/\s+/g, " ")`. -/
def collapseWs (l : List Char) : List Char :=
  collapseWsAux false l

/-- Embedding of `String.prototype.trim`: drop whitespace from both ends
(`rdropWhile` drops from the right, i.e. reverse, drop, reverse). -/
def trimChars (l : List Char) : List Char :=
  (l.dropWhile isWsChar).rdropWhile isWsChar

/-- Character-level pipeline of `normalizeText` (source lines 230-237):
NFC normalization, lowercasing (`Char.toLower` is the ASCII case map; the
program's native-script characters are unaffected by `toLowerCase`),
punctuation to spaces, whitespace collapsing, trim. -/
def normalizeChars (l : List Char) : List Char :=
  trimChars (collapseWs (((nfcChars l).map Char.toLower).map punctToSpace))

/-- Embedding of `normalizeText` (source lines 230-237). -/
def normalizeText (s : String) : String :=
  String.mk (normalizeChars s.data)

/-- Splitting on runs of whitespace, dropping empty fragments: the
composition `.split(/\s+/).filter(word => word.length > 0)` used by
`splitIntoWords` (source lines 240-244).  The accumulator holds the
current word reversed. -/
def splitWsAux : List Char → List Char → List (List Char)
  | acc, [] => if acc.isEmpty then [] else [acc.reverse]
  | acc, c :: rest =>
    if isWsChar c then
      if acc.isEmpty then splitWsAux [] rest else acc.reverse :: splitWsAux [] rest
    else splitWsAux (c :: acc) rest

/-- Embedding of `splitIntoWords` (source lines 240-244). -/
def splitIntoWords (s : String) : List String :=
  (splitWsAux [] (normalizeText s).data).map String.mk


/-- Candidate triple pushed onto `allPairs` by `alignWords` (source lines
296-306): a reference index, a spoken index, and their similarity. -/
structure SimPair where
  refIdx : ℕ
  spokenIdx : ℕ
  similarity : ℕ
deriving DecidableEq, Repr

/-- Ordering used by `allPairs.sort((a, b) => b.similarity - a.similarity)`:
`p` precedes `q` when `q.similarity ≤ p.similarity` (descending). -/
def pairGE (p q : SimPair) : Prop :=
  q.similarity ≤ p.similarity

instance : DecidableRel pairGE :=
  fun p q => Nat.decLe q.similarity p.similarity

instance : IsTotal SimPair pairGE :=
  ⟨fun p q => le_total q.similarity p.similarity⟩

instance : IsTrans SimPair pairGE :=
  ⟨fun _ _ _ h1 h2 => le_trans h2 h1⟩

/-- Embedding of `MIN_SIMILARITY_THRESHOLD` (source line 260). -/
def MIN_SIMILARITY_THRESHOLD : ℕ := 30

/-- Row-major flattening of the similarity matrix into the candidate list
(source lines 283-306): the source first fills
`similarityMatrix[i][j] = calculateWordSimilarity(referenceWords[i],
spokenWords[j])` and then pushes `{refIdx: i, spokenIdx: j, similarity:
similarityMatrix[i][j]}` for `i` ascending and, inside each `i`, `j`
ascending; the two loops are fused here. -/
def allPairs (referenceWords spokenWords : List String) : List SimPair :=
  (List.range referenceWords.length).flatMap fun i =>
    (List.range spokenWords.length).map fun j =>
      ⟨i, j, calculateWordSimilarity (referenceWords.getD i "") (spokenWords.getD j "")⟩

/-- Embedding of `allPairs.sort((a, b) => b.similarity - a.similarity)`
(source line 308).  ECMAScript `Array.prototype.sort` is stable, so the
sorted list is the unique reordering of `allPairs` that is descending in
similarity and keeps equal-similarity triples in their original row-major
order; stable insertion into an already sorted prefix realises exactly
that (`C9_sort_descending_and_stable`). -/
def sortedPairs (referenceWords spokenWords : List String) : List SimPair :=
  List.insertionSort pairGE (allPairs referenceWords spokenWords)

/-- State of the greedy selection loop (source lines 289-320): the sets
`matchedRef` and `matchedSpoken` (lists of indices, most recent first) and
the list of accepted matches in acceptance order (`matchList` here; the
source calls the array `matches`, which is a reserved word in Lean). -/
structure GreedyState where
  matchedRef : List ℕ
  matchedSpoken : List ℕ
  matchList : List SimPair

/-- One iteration of `for (const pair of allPairs)` (source lines 310-320):
accept the pair only if neither index is matched yet and the similarity
meets `MIN_SIMILARITY_THRESHOLD`. -/
def greedyStep (s : GreedyState) (pair : SimPair) : GreedyState :=
  if pair.refIdx ∉ s.matchedRef ∧ pair.spokenIdx ∉ s.matchedSpoken then
    if MIN_SIMILARITY_THRESHOLD ≤ pair.similarity then
      ⟨pair.refIdx :: s.matchedRef, pair.spokenIdx :: s.matchedSpoken, s.matchList ++ [pair]⟩
    else s
  else s

/-- Greedy selection over a candidate list, starting from empty sets. -/
def greedyMatches (l : List SimPair) : GreedyState :=
  l.foldl greedyStep ⟨[], [], []⟩

/-- Alignment entry produced by `alignWords`, recorded at the index level:
the source's step-3 loops build one record per reference index `i`
(matched or missing) and one per unmatched spoken index `j` (extra).  The
source stores the corresponding words directly; `entryToWords` recovers
exactly those records, so this indexed form is the same data with the
loop indices kept. -/
inductive AEntry where
  | matched (refIdx spokenIdx : ℕ) (similarity : ℕ)
  | missing (refIdx : ℕ)
  | extra (spokenIdx : ℕ)
deriving DecidableEq, Repr

/-- Entry emitted for reference index `i` by the source's step-3 loop
(source lines 330-346): `matches.find(m => m.refIdx === i)` decides
between a matched record and a missing record. -/
def buildRefEntry (st : GreedyState) (i : ℕ) : AEntry :=
  match st.matchList.find? (fun p => decide (p.refIdx = i)) with
  | some p => AEntry.matched i p.spokenIdx p.similarity
  | none => AEntry.missing i

/-- Embedding of `alignWords` (source lines 265-355), producing indexed
entries: the empty-input short circuits, then similarity matrix, row-major
candidate list, stable descending sort, greedy selection, and the two
emission loops (reference order, then unmatched spoken order). -/
def alignWords (referenceWords spokenWords : List String) : List AEntry :=
  let m := referenceWords.length
  let n := spokenWords.length
  if m = 0 ∧ n = 0 then []
  else if m = 0 then (List.range n).map AEntry.extra
  else if n = 0 then (List.range m).map AEntry.missing
  else
    let st := greedyMatches (sortedPairs referenceWords spokenWords)
    ((List.range m).map (buildRefEntry st)) ++
    ((List.range n).filter (fun j => decide (j ∉ st.matchedSpoken))).map AEntry.extra

/-- Word-level alignment record as the source returns it:
`{refWord, spokenWord, similarity}`. -/
structure WordEntry where
  refWord : String
  spokenWord : String
  similarity : ℕ
deriving DecidableEq, Repr

/-- Words stored by the source for each alignment entry: `referenceWords[i]`
and `spokenWords[match.spokenIdx]` for a match, the sentinel `"(missing)"`
with similarity 0 for a missing reference word (source lines 332-346), and
the sentinel `"(extra)"` with similarity 0 for an extra spoken word
(source lines 348-353). -/
def entryToWords (referenceWords spokenWords : List String) : AEntry → WordEntry
  | .matched i j s => ⟨referenceWords.getD i "", spokenWords.getD j "", s⟩
  | .missing i => ⟨referenceWords.getD i "", "(missing)", 0⟩
  | .extra j => ⟨"(extra)", spokenWords.getD j "", 0⟩

/-- The return value of the source's `alignWords`: the word-level records. -/
def alignWordsOut (referenceWords spokenWords : List String) : List WordEntry :=
  (alignWords referenceWords spokenWords).map (entryToWords referenceWords spokenWords)

/-- One element of the `wordScores` array built by
`calculateLevenshteinScores` (source lines 384-388). -/
structure WordScore where
  word : String
  transcribedWord : String
  score : ℕ
deriving DecidableEq, Repr

/-- Return shape of `calculateLevenshteinScores` (source lines 358-408). -/
structure ScoreResult where
  transcription : String
  wordScores : List WordScore
  overallScore : ℕ
  method : String
deriving DecidableEq, Repr

/-- Overall-score computation of `calculateLevenshteinScores` (source lines
391-397): `totalScore` is the sum of the word scores and the result is
`wordScores.length > 0 ? Math.round(totalScore / wordScores.length) : 0`. -/
def overallScoreOf (wordScores : List WordScore) : ℕ :=
  let totalScore := (wordScores.map WordScore.score).sum
  if 0 < wordScores.length then mathRoundDiv totalScore wordScores.length else 0

/-- Embedding of `calculateLevenshteinScores` (source lines 358-408):
tokenize both inputs, align, convert the alignment to word scores, compute
the overall score, and return the raw transcription together with them. -/
def calculateLevenshteinScores (transcription referenceText : String) : ScoreResult :=
  let referenceWords := splitIntoWords referenceText
  let transcribedWords := splitIntoWords transcription
  let alignment := alignWordsOut referenceWords transcribedWords
  let wordScores := alignment.map fun a => ⟨a.refWord, a.spokenWord, a.similarity⟩
  ⟨transcription, wordScores, overallScoreOf wordScores, "Sequence Alignment (Levenshtein)"⟩


/-- Mapping an index-to-element access over the index range of a list is
the same as mapping over the list itself. -/
theorem map_range_getD {α β : Type} (l : List α) (d : α) (f : α → β) :
    (List.range l.length).map (fun i => f (l.getD i d)) = l.map f := by
  induction l with
  | nil => simp
  | cons x xs ih =>
      rw [List.length_cons, List.range_succ_eq_map, List.map_cons, List.map_map]
      simp only [List.getD_cons_zero, List.getD_cons_succ, Function.comp]
      rw [List.map_cons]
      exact congrArg (f x :: ·) ih

/-- C10: for every pair of input strings, the `transcription` field of the
result of `calculateLevenshteinScores` is the raw transcription argument,
unchanged — it is not normalized, lowercased, or otherwise altered. -/
theorem C10_transcription_field_preserved (transcription referenceText : String) :
    (calculateLevenshteinScores transcription referenceText).transcription = transcription :=
  rfl

/-- C7: `alignWords` short-circuits its edge cases: both inputs empty gives
the empty alignment; an empty reference gives one Extra entry (similarity
0) per spoken token in original order; an empty spoken sequence gives one
Missing entry (similarity 0) per reference token in original order. -/
theorem C7_alignWords_edge_cases (referenceWords spokenWords : List String) :
    (referenceWords = [] ∧ spokenWords = [] →
      alignWordsOut referenceWords spokenWords = []) ∧
    (referenceWords = [] ∧ spokenWords ≠ [] →
      alignWordsOut referenceWords spokenWords =
        spokenWords.map fun w => ⟨"(extra)", w, 0⟩) ∧
    (spokenWords = [] ∧ referenceWords ≠ [] →
      alignWordsOut referenceWords spokenWords =
        referenceWords.map fun w => ⟨w, "(missing)", 0⟩) := by
  refine ⟨?_, ?_, ?_⟩
  · rintro ⟨rfl, rfl⟩
    rfl
  · rintro ⟨rfl, hne⟩
    have hn : ¬ spokenWords.length = 0 := fun h => hne (List.length_eq_zero.mp h)
    unfold alignWordsOut alignWords
    dsimp only
    rw [if_neg (fun h => hn h.2), if_pos List.length_nil, List.map_map]
    exact map_range_getD spokenWords "" fun w => (⟨"(extra)", w, 0⟩ : WordEntry)
  · rintro ⟨rfl, hne⟩
    have hm : ¬ referenceWords.length = 0 := fun h => hne (List.length_eq_zero.mp h)
    unfold alignWordsOut alignWords
    dsimp only
    rw [if_neg (fun h => hm h.1), if_neg hm, if_pos List.length_nil, List.map_map]
    exact map_range_getD referenceWords "" fun w => (⟨w, "(missing)", 0⟩ : WordEntry)

/-- C7 witness: concrete instances of the three edge cases. -/
theorem C7_alignWords_edge_cases_witness :
    alignWordsOut [] [] = [] ∧
    alignWordsOut [] ["hello"] = [⟨"(extra)", "hello", 0⟩] ∧
    alignWordsOut ["hello"] [] = [⟨"hello", "(missing)", 0⟩] :=
  ⟨(C7_alignWords_edge_cases [] []).1 ⟨rfl, rfl⟩,
   (C7_alignWords_edge_cases [] ["hello"]).2.1 ⟨rfl, by decide⟩,
   (C7_alignWords_edge_cases ["hello"] []).2.2 ⟨rfl, by decide⟩⟩

set_option maxRecDepth 10000 in
/-- C4 counterexample: on the concrete scenario (reference tokens
मैं आज बाज़ार, spoken tokens आज मैं बाजारी) the engine's aggregate score is
not the claimed 90: the third match scores 67, not 71, because the edit
distance 2 is taken over max token length 6 (बाज़ार has 6 code units
after NFC decomposition of ज़), not 7. -/
theorem C4_counterexample_aggregate_not_90 :
    (calculateLevenshteinScores "आज मैं बाजारी" "मैं आज बाज़ार").overallScore ≠ 90 := by
  decide

set_option maxRecDepth 10000 in
/-- C4 amended: the concrete pair yields exactly three Matched entries in
reference order मैं, आज, बाज़ार with similarities 100, 100 and 67 (edit
distance 2 over max length 6, round((1 - 2/6) * 100) = 67), and the
aggregate score is round((100 + 100 + 67) / 3) = 89. -/
theorem C4_amended_concrete_scenario :
    alignWordsOut ["मैं", "आज", "बाज़ार"] ["आज", "मैं", "बाजारी"] =
      [⟨"मैं", "मैं", 100⟩, ⟨"आज", "आज", 100⟩, ⟨"बाज़ार", "बाजारी", 67⟩] ∧
    levDist "बाज़ार".data "बाजारी".data = 2 ∧
    max "बाज़ार".length "बाजारी".length = 6 ∧
    calculateWordSimilarity "बाज़ार" "बाजारी" = 67 ∧
    (calculateLevenshteinScores "आज मैं बाजारी" "मैं आज बाज़ार").overallScore = 89 :=
  ⟨by decide, by decide, by decide, by decide, by decide⟩

/-- Rounded quotient bound: if `a ≤ k * b` then `Math.round(a / b) ≤ k`. -/
theorem mathRoundDiv_le_of_le (a b k : ℕ) (h : a ≤ k * b) : mathRoundDiv a b ≤ k := by
  unfold mathRoundDiv
  rcases Nat.eq_zero_or_pos b with hb | hb
  · subst hb
    simp
  · have h2b : 0 < 2 * b := by omega
    have e : (k + 1) * (2 * b) = 2 * (k * b) + 2 * b := by ring
    have hlt : 2 * a + b < (k + 1) * (2 * b) := by omega
    have := (Nat.div_lt_iff_lt_mul h2b).mpr hlt
    omega

set_option maxRecDepth 10000 in
/-- C5 counterexample: at edit distance 17 over maxLength 40 the claimed
exact formula fails.  The program's binary64 evaluation of
`(1 - 17/40) * 100` produces the double 57.49999999999999289, so
`Math.round` returns 57, while exact rational rounding of 57.5 gives 58. -/
theorem C5_counterexample_ieee_rounding :
    ¬ ((calculateWordSimilarity "aaaaaaaaaaaaaaaaaaaaaaabbbbbbbbbbbbbbbbb"
          "aaaaaaaaaaaaaaaaaaaaaaaaaaaaaaaaaaaaaaaa" : ℤ) =
        round (max 0 ((1 - (levDist ("aaaaaaaaaaaaaaaaaaaaaaabbbbbbbbbbbbbbbbb" : String).data
            ("aaaaaaaaaaaaaaaaaaaaaaaaaaaaaaaaaaaaaaaa" : String).data : ℚ) /
          ((max ("aaaaaaaaaaaaaaaaaaaaaaabbbbbbbbbbbbbbbbb" : String).length
            ("aaaaaaaaaaaaaaaaaaaaaaaaaaaaaaaaaaaaaaaa" : String).length : ℕ) : ℚ)) * 100))) := by
  intro h
  have h1 : calculateWordSimilarity "aaaaaaaaaaaaaaaaaaaaaaabbbbbbbbbbbbbbbbb"
      "aaaaaaaaaaaaaaaaaaaaaaaaaaaaaaaaaaaaaaaa" = 57 := by decide
  have h2 : levDist ("aaaaaaaaaaaaaaaaaaaaaaabbbbbbbbbbbbbbbbb" : String).data
      ("aaaaaaaaaaaaaaaaaaaaaaaaaaaaaaaaaaaaaaaa" : String).data = 17 := by decide
  have h3 : max ("aaaaaaaaaaaaaaaaaaaaaaabbbbbbbbbbbbbbbbb" : String).length
      ("aaaaaaaaaaaaaaaaaaaaaaaaaaaaaaaaaaaaaaaa" : String).length = 40 := by decide
  rw [h1, h2, h3] at h
  have h5 : round ((115 : ℚ) / 2) = 58 := by
    have h6 := mathRoundDiv_eq_round 115 2 (by norm_num)
    norm_num [mathRoundDiv] at h6
    exact h6.symm
  rw [show ((1 : ℚ) - ((17 : ℕ) : ℚ) / ((40 : ℕ) : ℚ)) * 100 = 115 / 2 by norm_num,
    max_eq_right (by norm_num : (0:ℚ) ≤ 115 / 2), h5] at h
  norm_num at h

/-- C5 amended: the similarity is a natural number at most 100 (hence an
integer in [0, 100]); it is 100 when both strings are empty; and whenever
the longer token has fewer than 40 characters it equals the exact
rounding of `max(0, (1 - distance / maxLength) * 100)` with `levDist` the
unit-cost Levenshtein distance.  Beyond that bound the program's binary64
arithmetic can land on the other side of a rounding boundary, first at
distance 17 over maxLength 40 (`C5_counterexample_ieee_rounding`). -/
theorem C5_amended_range_and_formula (a b : String) :
    calculateWordSimilarity a b ≤ 100 ∧
    (a.length = 0 ∧ b.length = 0 → calculateWordSimilarity a b = 100) ∧
    (¬ (a.length = 0 ∧ b.length = 0) → max a.length b.length < 40 →
      (calculateWordSimilarity a b : ℤ) =
        round (max 0 ((1 - (levDist a.data b.data : ℚ) /
          ((max a.length b.length : ℕ) : ℚ)) * 100))) := by
  refine ⟨calculateWordSimilarity_le_100 a b, ?_, ?_⟩
  · rintro ⟨ha, hb⟩
    unfold calculateWordSimilarity
    dsimp only
    rw [if_pos (by rw [ha, hb]; rfl)]
  · intro h h40
    have hLne : ¬ max a.length b.length = 0 := by
      rw [Nat.max_eq_zero_iff]
      exact h
    have hd : levDist a.data b.data ≤ max a.length b.length :=
      levDist_le_max a.data b.data
    have hL0 : ((max a.length b.length : ℕ) : ℚ) ≠ 0 := Nat.cast_ne_zero.mpr hLne
    have key : (1 - (levDist a.data b.data : ℚ) / ((max a.length b.length : ℕ) : ℚ)) * 100 =
        ((max a.length b.length - levDist a.data b.data : ℕ) : ℚ) * 100 /
          ((max a.length b.length : ℕ) : ℚ) := by
      rw [Nat.cast_sub hd]
      have hL0a : ((a.length : ℚ) ⊔ (b.length : ℚ)) ≠ 0 := by
        push_cast at hL0
        exact hL0
      push_cast
      field_simp
    have hnonneg : 0 ≤ ((max a.length b.length - levDist a.data b.data : ℕ) : ℚ) * 100 /
        ((max a.length b.length : ℕ) : ℚ) := by positivity
    rw [key, max_eq_right hnonneg]
    unfold calculateWordSimilarity
    dsimp only
    rw [if_neg hLne]
    rw [simRound_eq_exact_of_lt_40 (max a.length b.length) h40
      (Nat.pos_of_ne_zero hLne) (levDist a.data b.data) (by omega)]
    rw [mathRoundDiv_eq_round _ _ hLne]
    congr 1
    push_cast
    ring

/-- C5 amended witness: the empty-empty case gives 100 and a concrete short
pair (maxLength 2) matches the rounded rational formula. -/
theorem C5_amended_witness :
    calculateWordSimilarity "" "" = 100 ∧
    (calculateWordSimilarity "ab" "b" : ℤ) =
      round (max 0 ((1 - (levDist "ab".data "b".data : ℚ) /
        ((max "ab".length "b".length : ℕ) : ℚ)) * 100)) :=
  ⟨(C5_amended_range_and_formula "" "").2.1 ⟨rfl, rfl⟩,
   (C5_amended_range_and_formula "ab" "b").2.2 (by decide) (by decide)⟩

/-- Invariant of the greedy selection state: the matched-index lists are
exactly the reference/spoken indices of the accepted matches (most recent
first), accepted matches have pairwise distinct reference indices and
pairwise distinct spoken indices, and every accepted match has in-range
indices and similarity at or above the threshold. -/
def GreedyInv (m n : ℕ) (s : GreedyState) : Prop :=
  s.matchedRef = (s.matchList.map SimPair.refIdx).reverse ∧
  s.matchedSpoken = (s.matchList.map SimPair.spokenIdx).reverse ∧
  (s.matchList.map SimPair.refIdx).Nodup ∧
  (s.matchList.map SimPair.spokenIdx).Nodup ∧
  ∀ p ∈ s.matchList, p.refIdx < m ∧ p.spokenIdx < n ∧ MIN_SIMILARITY_THRESHOLD ≤ p.similarity

theorem greedyStep_inv {m n : ℕ} {s : GreedyState} {pair : SimPair}
    (hs : GreedyInv m n s) (hp : pair.refIdx < m ∧ pair.spokenIdx < n) :
    GreedyInv m n (greedyStep s pair) := by
  obtain ⟨h1, h2, h3, h4, h5⟩ := hs
  unfold greedyStep
  split_ifs with hcond hth
  · obtain ⟨hr, hsp⟩ := hcond
    rw [h1, List.mem_reverse] at hr
    rw [h2, List.mem_reverse] at hsp
    refine ⟨?_, ?_, ?_, ?_, ?_⟩
    · simp only [List.map_append, List.reverse_append, List.map_cons, List.map_nil,
        List.reverse_cons, List.reverse_nil, List.nil_append, List.cons_append]
      rw [h1]
    · simp only [List.map_append, List.reverse_append, List.map_cons, List.map_nil,
        List.reverse_cons, List.reverse_nil, List.nil_append, List.cons_append]
      rw [h2]
    · rw [List.map_append]
      simp only [List.map_cons, List.map_nil]
      rw [List.nodup_append]
      exact ⟨h3, List.nodup_singleton _, by simpa [List.disjoint_singleton] using hr⟩
    · rw [List.map_append]
      simp only [List.map_cons, List.map_nil]
      rw [List.nodup_append]
      exact ⟨h4, List.nodup_singleton _, by simpa [List.disjoint_singleton] using hsp⟩
    · intro p hpmem
      rcases List.mem_append.mp hpmem with hold | hnew
      · exact h5 p hold
      · rw [List.mem_singleton.mp hnew]
        exact ⟨hp.1, hp.2, hth⟩
  · exact ⟨h1, h2, h3, h4, h5⟩
  · exact ⟨h1, h2, h3, h4, h5⟩

theorem greedy_fold_inv {m n : ℕ} (l : List SimPair)
    (hl : ∀ p ∈ l, p.refIdx < m ∧ p.spokenIdx < n)
    {s : GreedyState} (hs : GreedyInv m n s) :
    GreedyInv m n (l.foldl greedyStep s) := by
  induction l generalizing s with
  | nil => exact hs
  | cons p ps ih =>
      exact ih (fun q hq => hl q (List.mem_cons_of_mem p hq))
        (greedyStep_inv hs (⟨(hl p (List.mem_cons_self p ps)).1, (hl p (List.mem_cons_self p ps)).2⟩))

theorem mem_allPairs {referenceWords spokenWords : List String} {p : SimPair}
    (hp : p ∈ allPairs referenceWords spokenWords) :
    p.refIdx < referenceWords.length ∧ p.spokenIdx < spokenWords.length ∧
      p.similarity = calculateWordSimilarity (referenceWords.getD p.refIdx "")
        (spokenWords.getD p.spokenIdx "") := by
  unfold allPairs at hp
  rw [List.mem_flatMap] at hp
  obtain ⟨i, hi, hp⟩ := hp
  rw [List.mem_map] at hp
  obtain ⟨j, hj, rfl⟩ := hp
  exact ⟨List.mem_range.mp hi, List.mem_range.mp hj, rfl⟩

theorem mem_sortedPairs {referenceWords spokenWords : List String} {p : SimPair} :
    p ∈ sortedPairs referenceWords spokenWords ↔ p ∈ allPairs referenceWords spokenWords :=
  (List.perm_insertionSort pairGE _).mem_iff

theorem greedyMatches_inv (referenceWords spokenWords : List String) :
    GreedyInv referenceWords.length spokenWords.length
      (greedyMatches (sortedPairs referenceWords spokenWords)) := by
  refine greedy_fold_inv _ ?_ ?_
  · intro p hp
    have h := mem_allPairs (mem_sortedPairs.mp hp)
    exact ⟨h.1, h.2.1⟩
  · exact ⟨rfl, rfl, List.nodup_nil, List.nodup_nil, by intro p hp; cases hp⟩

/-- Case analysis of the entry emitted for a reference index. -/
theorem buildRefEntry_cases (st : GreedyState) (i : ℕ) :
    (∃ p, p ∈ st.matchList ∧ p.refIdx = i ∧
      buildRefEntry st i = AEntry.matched i p.spokenIdx p.similarity) ∨
    ((∀ p ∈ st.matchList, p.refIdx ≠ i) ∧ buildRefEntry st i = AEntry.missing i) := by
  rcases hfd : st.matchList.find? (fun p => decide (p.refIdx = i)) with _ | p
  · right
    refine ⟨fun p hp hcon => ?_, by unfold buildRefEntry; rw [hfd]⟩
    have := List.find?_eq_none.mp hfd p hp
    simp [hcon] at this
  · left
    refine ⟨p, List.mem_of_find?_eq_some hfd, by simpa using List.find?_some hfd, ?_⟩
    unfold buildRefEntry
    rw [hfd]

/-- C2: no Matched entry of any alignment has similarity below the
threshold 30: a candidate pair with similarity in [1, 29] is never
accepted, whatever the rest of the candidate list looks like (its indices
resolve to Missing and Extra entries instead, by `C1` and `C3`). -/
theorem C2_matched_similarity_meets_threshold (referenceWords spokenWords : List String)
    (i j s : ℕ) (h : AEntry.matched i j s ∈ alignWords referenceWords spokenWords) :
    MIN_SIMILARITY_THRESHOLD ≤ s := by
  unfold alignWords at h
  dsimp only at h
  by_cases h00 : referenceWords.length = 0 ∧ spokenWords.length = 0
  · rw [if_pos h00] at h
    cases h
  rw [if_neg h00] at h
  by_cases hm0 : referenceWords.length = 0
  · rw [if_pos hm0] at h
    obtain ⟨j', _, heq⟩ := List.mem_map.mp h
    cases heq
  rw [if_neg hm0] at h
  by_cases hn0 : spokenWords.length = 0
  · rw [if_pos hn0] at h
    obtain ⟨i', _, heq⟩ := List.mem_map.mp h
    cases heq
  rw [if_neg hn0] at h
  have hinv := greedyMatches_inv referenceWords spokenWords
  obtain ⟨_, _, _, _, h5⟩ := hinv
  rcases List.mem_append.mp h with hF | hE
  · obtain ⟨i', _, heq⟩ := List.mem_map.mp hF
    rcases buildRefEntry_cases (greedyMatches (sortedPairs referenceWords spokenWords)) i'
      with ⟨p, hpmem, _, hbuild⟩ | ⟨_, hbuild⟩
    · rw [hbuild] at heq
      obtain ⟨_, _, hs⟩ := AEntry.matched.inj heq
      rw [← hs]
      exact (h5 p hpmem).2.2
    · rw [hbuild] at heq
      cases heq
  · obtain ⟨j', _, heq⟩ := List.mem_map.mp hE
    cases heq

/-- C2 witness: a perfect match in a concrete run meets the threshold. -/
theorem C2_witness : MIN_SIMILARITY_THRESHOLD ≤ 100 :=
  C2_matched_similarity_meets_threshold ["ab"] ["ab"] 0 0 100 (by decide)

/-- Reference index carried by an alignment entry (Matched and Missing
entries carry one, Extra entries do not). -/
def refIdxOf : AEntry → Option ℕ
  | .matched i _ _ => some i
  | .missing i => some i
  | .extra _ => none

/-- Spoken index carried by an alignment entry (Matched and Extra entries
carry one, Missing entries do not). -/
def spokenIdxOf : AEntry → Option ℕ
  | .matched _ j _ => some j
  | .missing _ => none
  | .extra j => some j

theorem refIdxOf_buildRefEntry (st : GreedyState) (i : ℕ) :
    refIdxOf (buildRefEntry st i) = some i := by
  rcases buildRefEntry_cases st i with ⟨p, _, _, hb⟩ | ⟨_, hb⟩ <;> rw [hb] <;> rfl

/-- Counting over an index-range map: when the tested property holds for
exactly one index below `m`, the count is 1. -/
theorem countP_map_range_one {β : Type} (f : ℕ → β) (p : β → Bool) (m i0 : ℕ) (hi0 : i0 < m)
    (hiff : ∀ i, i < m → (p (f i) = true ↔ i = i0)) :
    ((List.range m).map f).countP p = 1 := by
  rw [List.countP_map]
  have hcg : ∀ i ∈ List.range m, ((p ∘ f) i = true ↔ (i == i0) = true) := by
    intro i hi
    have hi' := List.mem_range.mp hi
    by_cases he : i = i0
    · subst he
      simp [Function.comp, (hiff i hi').mpr rfl]
    · have hf : p (f i) = false := by
        cases hpf : p (f i) with
        | false => rfl
        | true => exact absurd ((hiff i hi').mp hpf) he
      simp [Function.comp, hf, he]
  rw [List.countP_congr hcg]
  show List.count i0 (List.range m) = 1
  exact List.count_eq_one_of_mem (List.nodup_range m) (List.mem_range.mpr hi0)

/-- C1: for every pair of token sequences, every reference index below the
reference length occurs in exactly one alignment entry (Matched or
Missing), and every spoken index below the spoken length occurs in exactly
one alignment entry (Matched or Extra): no index is dropped and none
appears twice. -/
theorem C1_alignment_partition (referenceWords spokenWords : List String) :
    (∀ i, i < referenceWords.length →
      (alignWords referenceWords spokenWords).countP
        (fun e => decide (refIdxOf e = some i)) = 1) ∧
    (∀ j, j < spokenWords.length →
      (alignWords referenceWords spokenWords).countP
        (fun e => decide (spokenIdxOf e = some j)) = 1) := by
  constructor
  · intro i hi
    have hm0 : ¬ referenceWords.length = 0 := by omega
    have h00 : ¬ (referenceWords.length = 0 ∧ spokenWords.length = 0) := fun h => hm0 h.1
    unfold alignWords
    dsimp only
    rw [if_neg h00, if_neg hm0]
    by_cases hn0 : spokenWords.length = 0
    · rw [if_pos hn0]
      refine countP_map_range_one AEntry.missing _ _ i hi ?_
      intro i' _
      simp [refIdxOf]
    · rw [if_neg hn0, List.countP_append]
      have hF : ((List.range referenceWords.length).map
          (buildRefEntry (greedyMatches (sortedPairs referenceWords spokenWords)))).countP
            (fun e => decide (refIdxOf e = some i)) = 1 := by
        refine countP_map_range_one _ _ _ i hi ?_
        intro i' _
        rw [refIdxOf_buildRefEntry]
        simp
      have hE : (((List.range spokenWords.length).filter
          (fun j => decide (j ∉ (greedyMatches
            (sortedPairs referenceWords spokenWords)).matchedSpoken))).map AEntry.extra).countP
            (fun e => decide (refIdxOf e = some i)) = 0 := by
        rw [List.countP_eq_zero]
        intro e he
        obtain ⟨j', _, rfl⟩ := List.mem_map.mp he
        simp [refIdxOf]
      rw [hF, hE]
  · intro j hj
    have hn0 : ¬ spokenWords.length = 0 := by omega
    have h00 : ¬ (referenceWords.length = 0 ∧ spokenWords.length = 0) := fun h => hn0 h.2
    unfold alignWords
    dsimp only
    rw [if_neg h00]
    by_cases hm0 : referenceWords.length = 0
    · rw [if_pos hm0]
      refine countP_map_range_one AEntry.extra _ _ j hj ?_
      intro j' _
      simp [spokenIdxOf]
    · rw [if_neg hm0, if_neg hn0, List.countP_append]
      obtain ⟨h1, h2, h3, h4, h5⟩ := greedyMatches_inv referenceWords spokenWords
      by_cases hjmem : j ∈ (greedyMatches (sortedPairs referenceWords spokenWords)).matchedSpoken
      · have hjmem2 := hjmem
        rw [h2, List.mem_reverse, List.mem_map] at hjmem2
        obtain ⟨q, hqmem, hqj⟩ := hjmem2
        have hqr : q.refIdx < referenceWords.length := (h5 q hqmem).1
        have hF : ((List.range referenceWords.length).map
            (buildRefEntry (greedyMatches (sortedPairs referenceWords spokenWords)))).countP
              (fun e => decide (spokenIdxOf e = some j)) = 1 := by
          refine countP_map_range_one _ _ _ q.refIdx hqr ?_
          intro i' _
          rcases buildRefEntry_cases (greedyMatches (sortedPairs referenceWords spokenWords)) i'
            with ⟨p, hpmem, hpi, hbuild⟩ | ⟨hnone, hbuild⟩
          · rw [hbuild]
            constructor
            · intro hp
              have hps : p.spokenIdx = j := by simpa [spokenIdxOf] using hp
              have hpq : p = q := List.inj_on_of_nodup_map h4 hpmem hqmem (by rw [hps, hqj])
              rw [← hpi, hpq]
            · intro hieq
              have hpq : p = q := List.inj_on_of_nodup_map h3 hpmem hqmem (by rw [hpi, hieq])
              simp [spokenIdxOf, hpq, hqj]
          · rw [hbuild]
            constructor
            · intro hp
              simp [spokenIdxOf] at hp
            · intro hieq
              exact absurd hieq.symm (hnone q hqmem)
        have hE : (((List.range spokenWords.length).filter
            (fun j => decide (j ∉ (greedyMatches
              (sortedPairs referenceWords spokenWords)).matchedSpoken))).map AEntry.extra).countP
              (fun e => decide (spokenIdxOf e = some j)) = 0 := by
          rw [List.countP_eq_zero]
          intro e he
          obtain ⟨j', hj', rfl⟩ := List.mem_map.mp he
          have hjf := (List.mem_filter.mp hj').2
          intro hp
          have hj'j : j' = j := by simpa [spokenIdxOf] using hp
          rw [hj'j] at hjf
          exact (of_decide_eq_true hjf) hjmem
        rw [hF, hE]
      · have hF : ((List.range referenceWords.length).map
            (buildRefEntry (greedyMatches (sortedPairs referenceWords spokenWords)))).countP
              (fun e => decide (spokenIdxOf e = some j)) = 0 := by
          rw [List.countP_eq_zero]
          intro e he
          obtain ⟨i', _, rfl⟩ := List.mem_map.mp he
          rcases buildRefEntry_cases (greedyMatches (sortedPairs referenceWords spokenWords)) i'
            with ⟨p, hpmem, hpi, hbuild⟩ | ⟨hnone, hbuild⟩
          · rw [hbuild]
            intro hp
            have hps : p.spokenIdx = j := by simpa [spokenIdxOf] using hp
            apply hjmem
            rw [h2, List.mem_reverse, List.mem_map]
            exact ⟨p, hpmem, hps⟩
          · rw [hbuild]
            intro hp
            simp [spokenIdxOf] at hp
        have hE : (((List.range spokenWords.length).filter
            (fun j => decide (j ∉ (greedyMatches
              (sortedPairs referenceWords spokenWords)).matchedSpoken))).map AEntry.extra).countP
              (fun e => decide (spokenIdxOf e = some j)) = 1 := by
          rw [List.countP_map]
          have hcg : ∀ x ∈ (List.range spokenWords.length).filter
              (fun j => decide (j ∉ (greedyMatches
                (sortedPairs referenceWords spokenWords)).matchedSpoken)),
              (((fun e => decide (spokenIdxOf e = some j)) ∘ AEntry.extra) x = true ↔
                (x == j) = true) := by
            intro x _
            simp [Function.comp, spokenIdxOf]
          rw [List.countP_congr hcg]
          show List.count j _ = 1
          refine List.count_eq_one_of_mem ((List.nodup_range spokenWords.length).filter _) ?_
          rw [List.mem_filter]
          exact ⟨List.mem_range.mpr hj, by simpa using hjmem⟩
        rw [hF, hE]

/-- C1 witness: in a concrete run both indices are covered exactly once. -/
theorem C1_witness :
    (alignWords ["ab"] ["ab"]).countP (fun e => decide (refIdxOf e = some 0)) = 1 ∧
    (alignWords ["ab"] ["ab"]).countP (fun e => decide (spokenIdxOf e = some 0)) = 1 :=
  ⟨(C1_alignment_partition ["ab"] ["ab"]).1 0 (by decide),
   (C1_alignment_partition ["ab"] ["ab"]).2 0 (by decide)⟩

/-- Spoken index of an Extra entry (none for Matched/Missing entries). -/
def extraIdxOf : AEntry → Option ℕ
  | .extra j => some j
  | .matched _ _ _ => none
  | .missing _ => none

theorem extraIdxOf_buildRefEntry (st : GreedyState) (i : ℕ) :
    extraIdxOf (buildRefEntry st i) = none := by
  rcases buildRefEntry_cases st i with ⟨p, _, _, hb⟩ | ⟨_, hb⟩ <;> rw [hb] <;> rfl

/-- Unfolding of `alignWords` in the general case (both inputs nonempty). -/
theorem alignWords_general (referenceWords spokenWords : List String)
    (hm0 : ¬ referenceWords.length = 0) (hn0 : ¬ spokenWords.length = 0) :
    alignWords referenceWords spokenWords =
      ((List.range referenceWords.length).map
        (buildRefEntry (greedyMatches (sortedPairs referenceWords spokenWords)))) ++
      (((List.range spokenWords.length).filter
        (fun j => decide (j ∉ (greedyMatches
          (sortedPairs referenceWords spokenWords)).matchedSpoken))).map AEntry.extra) := by
  unfold alignWords
  dsimp only
  rw [if_neg (fun h => hm0 h.1), if_neg hm0, if_neg hn0]

theorem filterMap_some_id (l : List ℕ) : l.filterMap (fun j => some j) = l := by
  have h : (fun j : ℕ => some j) = some ∘ id := rfl
  rw [h, List.filterMap_eq_map, List.map_id]

/-- C3: the alignment lists all Matched and Missing entries first, in
increasing order of reference index, followed by all Extra entries, in
increasing order of spoken index. -/
theorem C3_alignment_ordering (referenceWords spokenWords : List String) :
    alignWords referenceWords spokenWords =
      (alignWords referenceWords spokenWords).filter (fun e => (extraIdxOf e).isNone) ++
        (alignWords referenceWords spokenWords).filter (fun e => (extraIdxOf e).isSome) ∧
    List.Sorted (· < ·) ((alignWords referenceWords spokenWords).filterMap refIdxOf) ∧
    List.Sorted (· < ·) ((alignWords referenceWords spokenWords).filterMap extraIdxOf) := by
  by_cases hm0 : referenceWords.length = 0
  · by_cases hn0 : spokenWords.length = 0
    · have hA : alignWords referenceWords spokenWords = [] := by
        unfold alignWords
        dsimp only
        rw [if_pos ⟨hm0, hn0⟩]
      rw [hA]
      exact ⟨rfl, List.sorted_nil, List.sorted_nil⟩
    · have hA : alignWords referenceWords spokenWords =
          (List.range spokenWords.length).map AEntry.extra := by
        unfold alignWords
        dsimp only
        rw [if_neg (fun h => hn0 h.2), if_pos hm0]
      rw [hA]
      refine ⟨?_, ?_, ?_⟩
      · rw [List.filter_eq_nil_iff.mpr, List.filter_eq_self.mpr]
        · rw [List.nil_append]
        · intro e he
          obtain ⟨j, _, rfl⟩ := List.mem_map.mp he
          rfl
        · intro e he
          obtain ⟨j, _, rfl⟩ := List.mem_map.mp he
          simp [extraIdxOf]
      · rw [List.filterMap_map]
        have h : (refIdxOf ∘ AEntry.extra) = fun _ => none := rfl
        rw [h, List.filterMap_eq_nil_iff.mpr (fun a _ => rfl)]
        exact List.sorted_nil
      · rw [List.filterMap_map]
        have h : (extraIdxOf ∘ AEntry.extra) = fun j => some j := rfl
        rw [h, filterMap_some_id]
        exact List.sorted_lt_range spokenWords.length
  · by_cases hn0 : spokenWords.length = 0
    · have hA : alignWords referenceWords spokenWords =
          (List.range referenceWords.length).map AEntry.missing := by
        unfold alignWords
        dsimp only
        rw [if_neg (fun h => hm0 h.1), if_neg hm0, if_pos hn0]
      rw [hA]
      refine ⟨?_, ?_, ?_⟩
      · rw [List.filter_eq_self.mpr, List.filter_eq_nil_iff.mpr, List.append_nil]
        · intro e he
          obtain ⟨i, _, rfl⟩ := List.mem_map.mp he
          simp [extraIdxOf]
        · intro e he
          obtain ⟨i, _, rfl⟩ := List.mem_map.mp he
          rfl
      · rw [List.filterMap_map]
        have h : (refIdxOf ∘ AEntry.missing) = fun i => some i := rfl
        rw [h, filterMap_some_id]
        exact List.sorted_lt_range referenceWords.length
      · rw [List.filterMap_map]
        have h : (extraIdxOf ∘ AEntry.missing) = fun _ => none := rfl
        rw [h, List.filterMap_eq_nil_iff.mpr (fun a _ => rfl)]
        exact List.sorted_nil
    · rw [alignWords_general referenceWords spokenWords hm0 hn0]
      refine ⟨?_, ?_, ?_⟩
      · rw [List.filter_append, List.filter_append]
        have e1 : ((List.range referenceWords.length).map
            (buildRefEntry (greedyMatches (sortedPairs referenceWords spokenWords)))).filter
              (fun e => (extraIdxOf e).isNone) =
            (List.range referenceWords.length).map
              (buildRefEntry (greedyMatches (sortedPairs referenceWords spokenWords))) := by
          refine List.filter_eq_self.mpr ?_
          intro e he
          obtain ⟨i, _, rfl⟩ := List.mem_map.mp he
          rw [extraIdxOf_buildRefEntry]
          rfl
        have e2 : ((((List.range spokenWords.length).filter
            (fun j => decide (j ∉ (greedyMatches
              (sortedPairs referenceWords spokenWords)).matchedSpoken))).map AEntry.extra).filter
              (fun e => (extraIdxOf e).isNone)) = [] := by
          refine List.filter_eq_nil_iff.mpr ?_
          intro e he
          obtain ⟨j, _, rfl⟩ := List.mem_map.mp he
          simp [extraIdxOf]
        have e3 : (((List.range referenceWords.length).map
            (buildRefEntry (greedyMatches (sortedPairs referenceWords spokenWords)))).filter
              (fun e => (extraIdxOf e).isSome)) = [] := by
          refine List.filter_eq_nil_iff.mpr ?_
          intro e he
          obtain ⟨i, _, rfl⟩ := List.mem_map.mp he
          rw [extraIdxOf_buildRefEntry]
          simp
        have e4 : ((((List.range spokenWords.length).filter
            (fun j => decide (j ∉ (greedyMatches
              (sortedPairs referenceWords spokenWords)).matchedSpoken))).map AEntry.extra).filter
              (fun e => (extraIdxOf e).isSome)) =
            (((List.range spokenWords.length).filter
              (fun j => decide (j ∉ (greedyMatches
                (sortedPairs referenceWords spokenWords)).matchedSpoken))).map AEntry.extra) := by
          refine List.filter_eq_self.mpr ?_
          intro e he
          obtain ⟨j, _, rfl⟩ := List.mem_map.mp he
          rfl
        rw [e1, e2, e3, e4, List.append_nil, List.nil_append]
      · rw [List.filterMap_append, List.filterMap_map, List.filterMap_map]
        have h1 : ∀ i ∈ List.range referenceWords.length,
            (refIdxOf ∘ buildRefEntry (greedyMatches
              (sortedPairs referenceWords spokenWords))) i = some i := by
          intro i _
          exact refIdxOf_buildRefEntry _ i
        rw [List.filterMap_congr h1, filterMap_some_id]
        have h2 : (refIdxOf ∘ AEntry.extra) = fun _ => none := rfl
        rw [h2, List.filterMap_eq_nil_iff.mpr (fun a _ => rfl), List.append_nil]
        exact List.sorted_lt_range referenceWords.length
      · rw [List.filterMap_append, List.filterMap_map, List.filterMap_map]
        have h1 : ∀ i ∈ List.range referenceWords.length,
            (extraIdxOf ∘ buildRefEntry (greedyMatches
              (sortedPairs referenceWords spokenWords))) i = none := by
          intro i _
          exact extraIdxOf_buildRefEntry _ i
        rw [List.filterMap_congr h1, List.filterMap_eq_nil_iff.mpr (fun a _ => rfl), List.nil_append]
        have h2 : (extraIdxOf ∘ AEntry.extra) = fun j => some j := rfl
        rw [h2, filterMap_some_id]
        exact ((List.sorted_lt_range spokenWords.length).filter _)

/-- Stability of the candidate sort: filtering the sorted list to any one
similarity value yields exactly the filtered input list, in its original
order. -/
theorem insertionSort_filter_similarity (s : ℕ) (l : List SimPair) :
    (List.insertionSort pairGE l).filter (fun p => decide (p.similarity = s)) =
      l.filter (fun p => decide (p.similarity = s)) := by
  induction l with
  | nil => rfl
  | cons x xs ih =>
      rw [List.insertionSort, List.orderedInsert_eq_take_drop, List.filter_append]
      have hsplit : (List.insertionSort pairGE xs).takeWhile (fun b => decide (¬ pairGE x b)) ++
          (List.insertionSort pairGE xs).dropWhile (fun b => decide (¬ pairGE x b)) =
          List.insertionSort pairGE xs := List.takeWhile_append_dropWhile _ _
      have hdropfilter : ((List.insertionSort pairGE xs).takeWhile
            (fun b => decide (¬ pairGE x b))).filter (fun p => decide (p.similarity = s)) ++
          ((List.insertionSort pairGE xs).dropWhile
            (fun b => decide (¬ pairGE x b))).filter (fun p => decide (p.similarity = s)) =
          xs.filter (fun p => decide (p.similarity = s)) := by
        have h := congrArg (List.filter (fun p => decide (p.similarity = s))) hsplit
        rw [List.filter_append] at h
        rw [h, ih]
      by_cases hx : x.similarity = s
      · have htw : ((List.insertionSort pairGE xs).takeWhile
            (fun b => decide (¬ pairGE x b))).filter (fun p => decide (p.similarity = s)) = [] := by
          refine List.filter_eq_nil_iff.mpr ?_
          intro b hb
          have hbtw : ¬ pairGE x b := by
            have h := List.mem_takeWhile_imp hb
            simpa using h
          have hlt : x.similarity < b.similarity := by
            unfold pairGE at hbtw
            omega
          simp only [decide_eq_true_eq]
          omega
        rw [htw, List.nil_append, List.filter_cons_of_pos (by simp [hx]),
          List.filter_cons_of_pos (by simp [hx])]
        have hdf : ((List.insertionSort pairGE xs).dropWhile
            (fun b => decide (¬ pairGE x b))).filter (fun p => decide (p.similarity = s)) =
            xs.filter (fun p => decide (p.similarity = s)) := by
          rw [← hdropfilter, htw, List.nil_append]
        rw [hdf]
      · rw [List.filter_cons_of_neg (by simp [hx]), List.filter_cons_of_neg (by simp [hx])]
        exact hdropfilter

/-- C9: the embedded engine is a pure function, so identical inputs give
identical outputs by definition; the candidate sort it uses is ordered by
descending similarity only and is stable: triples of equal similarity keep
the row-major enumeration order of `allPairs`. -/
theorem C9_sort_descending_and_stable (referenceWords spokenWords : List String) :
    List.Sorted pairGE (sortedPairs referenceWords spokenWords) ∧
    (∀ s : ℕ, (sortedPairs referenceWords spokenWords).filter
        (fun p => decide (p.similarity = s)) =
      (allPairs referenceWords spokenWords).filter (fun p => decide (p.similarity = s))) :=
  ⟨List.sorted_insertionSort pairGE (allPairs referenceWords spokenWords),
   fun s => insertionSort_filter_similarity s (allPairs referenceWords spokenWords)⟩

/-- Rounding of an exact multiple: `Math.round((L * 100) / L) = 100`. -/
theorem mathRoundDiv_hundred (L : ℕ) (hL : L ≠ 0) : mathRoundDiv (L * 100) L = 100 := by
  unfold mathRoundDiv
  have e : 2 * (L * 100) + L = L + (2 * L) * 100 := by ring
  rw [e, Nat.add_mul_div_left _ _ (show 0 < 2 * L by omega), Nat.div_eq_of_lt (by omega)]

/-- A fold of the greedy step skips every pair whose reference index is
already matched. -/
theorem greedy_fold_skip_ref (l : List SimPair) (s : GreedyState)
    (h : ∀ p ∈ l, p.refIdx ∈ s.matchedRef) : l.foldl greedyStep s = s := by
  induction l with
  | nil => rfl
  | cons x xs ih =>
      rw [List.foldl_cons]
      have hx : greedyStep s x = s := by
        unfold greedyStep
        rw [if_neg (fun hc => hc.1 (h x (List.mem_cons_self x xs)))]
      rw [hx]
      exact ih (fun p hp => h p (List.mem_cons_of_mem x hp))

/-- A fold of the greedy step skips every pair whose spoken index is
already matched. -/
theorem greedy_fold_skip_spoken (l : List SimPair) (s : GreedyState)
    (h : ∀ p ∈ l, p.spokenIdx ∈ s.matchedSpoken) : l.foldl greedyStep s = s := by
  induction l with
  | nil => rfl
  | cons x xs ih =>
      rw [List.foldl_cons]
      have hx : greedyStep s x = s := by
        unfold greedyStep
        rw [if_neg (fun hc => hc.2 (h x (List.mem_cons_self x xs)))]
      rw [hx]
      exact ih (fun p hp => h p (List.mem_cons_of_mem x hp))

/-- Diagonal matches accepted on identical token lists: indices 0..k-1,
each matched to itself with similarity 100. -/
def diagMatches (k : ℕ) : List SimPair :=
  (List.range k).map fun i => ⟨i, i, 100⟩

/-- Greedy state after the diagonal matches 0..k-1 have been accepted. -/
def diagState (k : ℕ) : GreedyState :=
  ⟨(List.range k).reverse, (List.range k).reverse, diagMatches k⟩

/-- Folding over a flat map folds row by row. -/
theorem foldl_flatMap {α β γ : Type} (g : α → List β) (f : γ → β → γ) (l : List α) (init : γ) :
    (l.flatMap g).foldl f init = l.foldl (fun acc a => (g a).foldl f acc) init := by
  induction l generalizing init with
  | nil => rfl
  | cons x xs ih =>
      rw [List.flatMap_cons, List.foldl_append, List.foldl_cons]
      exact ih _

/-- A list sorted by descending similarity, all values at most 100, splits
into its similarity-100 block followed by the rest. -/
theorem sorted_filter_100_append (l : List SimPair) (hs : List.Sorted pairGE l)
    (hle : ∀ p ∈ l, p.similarity ≤ 100) :
    l = l.filter (fun p => decide (p.similarity = 100)) ++
      l.filter (fun p => decide (¬ p.similarity = 100)) := by
  induction l with
  | nil => rfl
  | cons x xs ih =>
      rw [List.sorted_cons] at hs
      by_cases hx : x.similarity = 100
      · rw [List.filter_cons_of_pos (by simp [hx]), List.filter_cons_of_neg (by simp [hx]),
          List.cons_append]
        congr 1
        exact ih hs.2 (fun p hp => hle p (List.mem_cons_of_mem _ hp))
      · rw [List.filter_cons_of_neg (by simp [hx]), List.filter_cons_of_pos (by simp [hx])]
        have h100 : xs.filter (fun p => decide (p.similarity = 100)) = [] := by
          refine List.filter_eq_nil_iff.mpr ?_
          intro p hp
          have h1 : pairGE x p := hs.1 p hp
          have h2 := hle x (List.mem_cons_self x xs)
          unfold pairGE at h1
          simp only [decide_eq_true_eq]
          omega
        have hne : xs.filter (fun p => decide (¬ p.similarity = 100)) = xs := by
          refine List.filter_eq_self.mpr ?_
          intro p hp
          have h1 : pairGE x p := hs.1 p hp
          have h2 := hle x (List.mem_cons_self x xs)
          unfold pairGE at h1
          simp only [decide_eq_true_eq]
          omega
        rw [h100, List.nil_append, hne]

/-- Processing one similarity-100 row of an identical-lists run: with rows
0..k-1 already matched diagonally, the row of reference index `k` (its
spoken candidates in increasing order, including `k` itself) matches `k`
to `k` and nothing else. -/
theorem greedy_row_fold (k : ℕ) (js : List ℕ) (hsorted : List.Pairwise (· < ·) js)
    (hk : k ∈ js) :
    (js.map fun j => (⟨k, j, 100⟩ : SimPair)).foldl greedyStep (diagState k) =
      diagState (k + 1) := by
  obtain ⟨before, after, rfl⟩ := List.append_of_mem hk
  rw [List.pairwise_append] at hsorted
  have hbk : ∀ b ∈ before, b < k := fun b hb => hsorted.2.2 b hb k (List.mem_cons_self k after)
  rw [List.map_append, List.foldl_append]
  have hbefore : ((before.map fun j => (⟨k, j, 100⟩ : SimPair))).foldl greedyStep (diagState k) =
      diagState k := by
    refine greedy_fold_skip_spoken _ _ ?_
    intro p hp
    obtain ⟨b, hb, rfl⟩ := List.mem_map.mp hp
    show b ∈ (List.range k).reverse
    rw [List.mem_reverse, List.mem_range]
    exact hbk b hb
  rw [hbefore, List.map_cons, List.foldl_cons]
  have hnotmem : (k : ℕ) ∉ (List.range k).reverse := by
    rw [List.mem_reverse, List.mem_range]
    omega
  have hstep : greedyStep (diagState k) ⟨k, k, 100⟩ = diagState (k + 1) := by
    unfold greedyStep
    split_ifs with hc ht
    · show (⟨k :: (List.range k).reverse, k :: (List.range k).reverse,
          diagMatches k ++ [⟨k, k, 100⟩]⟩ : GreedyState) = diagState (k + 1)
      have hrev : k :: (List.range k).reverse = (List.range (k + 1)).reverse := by
        rw [List.range_succ, List.reverse_append]
        rfl
      have hdg : diagMatches k ++ [(⟨k, k, 100⟩ : SimPair)] = diagMatches (k + 1) := by
        unfold diagMatches
        rw [List.range_succ, List.map_append]
        rfl
      unfold diagState
      rw [hrev, hdg]
    · refine absurd ?_ ht
      show MIN_SIMILARITY_THRESHOLD ≤ 100
      decide
    · exact absurd ⟨hnotmem, hnotmem⟩ hc
  rw [hstep]
  refine greedy_fold_skip_ref _ _ ?_
  intro p hp
  obtain ⟨b, hb, rfl⟩ := List.mem_map.mp hp
  show k ∈ (List.range (k + 1)).reverse
  rw [List.mem_reverse, List.mem_range]
  omega

/-- Processing all similarity-100 rows in row-major order on identical
lists yields exactly the diagonal matching. -/
theorem greedy_fold_rows (jsOf : ℕ → List ℕ) :
    ∀ k, (∀ i, i < k → List.Pairwise (· < ·) (jsOf i) ∧ i ∈ jsOf i) →
    (List.range k).foldl
      (fun acc i => ((jsOf i).map fun j => (⟨i, j, 100⟩ : SimPair)).foldl greedyStep acc)
      (diagState 0) = diagState k := by
  intro k
  induction k with
  | zero => intro _; rfl
  | succ k ih =>
      intro h
      rw [List.range_succ, List.foldl_append, ih (fun i hi => h i (by omega)),
        List.foldl_cons, List.foldl_nil]
      exact greedy_row_fold k (jsOf k) (h k (by omega)).1 (h k (by omega)).2

/-- On identical token lists the greedy selection accepts exactly the
diagonal: every index matched to itself at similarity 100. -/
theorem greedyMatches_self (ws : List String) :
    greedyMatches (sortedPairs ws ws) = diagState ws.length := by
  have hsorted : List.Sorted pairGE (sortedPairs ws ws) :=
    List.sorted_insertionSort pairGE (allPairs ws ws)
  have hle : ∀ p ∈ sortedPairs ws ws, p.similarity ≤ 100 := by
    intro p hp
    have h := mem_allPairs (mem_sortedPairs.mp hp)
    rw [h.2.2]
    exact calculateWordSimilarity_le_100 _ _
  have hsplit := sorted_filter_100_append (sortedPairs ws ws) hsorted hle
  have hstab : (sortedPairs ws ws).filter (fun p => decide (p.similarity = 100)) =
      (allPairs ws ws).filter (fun p => decide (p.similarity = 100)) :=
    insertionSort_filter_similarity 100 (allPairs ws ws)
  have hrows : (allPairs ws ws).filter (fun p => decide (p.similarity = 100)) =
      (List.range ws.length).flatMap fun i =>
        (((List.range ws.length).filter fun j =>
          decide (calculateWordSimilarity (ws.getD i "") (ws.getD j "") = 100)).map
            fun j => (⟨i, j, 100⟩ : SimPair)) := by
    unfold allPairs
    rw [List.filter_flatMap]
    rw [List.flatMap_def, List.flatMap_def]
    refine congrArg List.flatten ?_
    refine List.map_congr_left ?_
    intro i _
    rw [List.filter_map]
    have hpred : ((List.range ws.length).filter
        ((fun p => decide (p.similarity = 100)) ∘ fun j =>
          (⟨i, j, calculateWordSimilarity (ws.getD i "") (ws.getD j "")⟩ : SimPair))) =
        ((List.range ws.length).filter fun j =>
          decide (calculateWordSimilarity (ws.getD i "") (ws.getD j "") = 100)) :=
      List.filter_congr (fun a _ => rfl)
    rw [hpred]
    refine List.map_congr_left ?_
    intro j hj
    have hj100 := of_decide_eq_true (List.mem_filter.mp hj).2
    rw [hj100]
  have hinit : (⟨[], [], []⟩ : GreedyState) = diagState 0 := rfl
  have hdiagcond : ∀ i, i < ws.length →
      List.Pairwise (· < ·) ((List.range ws.length).filter fun j =>
        decide (calculateWordSimilarity (ws.getD i "") (ws.getD j "") = 100)) ∧
      i ∈ ((List.range ws.length).filter fun j =>
        decide (calculateWordSimilarity (ws.getD i "") (ws.getD j "") = 100)) := by
    intro i hi
    constructor
    · exact (List.pairwise_lt_range ws.length).filter _
    · rw [List.mem_filter]
      refine ⟨List.mem_range.mpr hi, ?_⟩
      rw [decide_eq_true_eq]
      exact calculateWordSimilarity_self _
  have hrest : ∀ p ∈ (sortedPairs ws ws).filter (fun p => decide (¬ p.similarity = 100)),
      p.refIdx ∈ (diagState ws.length).matchedRef := by
    intro p hp
    have hpS : p ∈ sortedPairs ws ws := List.mem_of_mem_filter hp
    have h := mem_allPairs (mem_sortedPairs.mp hpS)
    show p.refIdx ∈ (List.range ws.length).reverse
    rw [List.mem_reverse, List.mem_range]
    exact h.1
  unfold greedyMatches
  rw [hsplit, List.foldl_append, hstab, hrows, hinit,
    foldl_flatMap, greedy_fold_rows _ ws.length hdiagcond]
  exact greedy_fold_skip_ref _ _ hrest

/-- Aligning a nonempty token list with itself yields the diagonal
matching in order: every index matched to itself with similarity 100. -/
theorem alignWords_self (ws : List String) (hws : ws ≠ []) :
    alignWords ws ws = (List.range ws.length).map fun i => AEntry.matched i i 100 := by
  have hm0 : ¬ ws.length = 0 := fun h => hws (List.length_eq_zero.mp h)
  rw [alignWords_general ws ws hm0 hm0, greedyMatches_self]
  have hE : ((List.range ws.length).filter
      (fun j => decide (j ∉ (diagState ws.length).matchedSpoken))).map AEntry.extra = [] := by
    rw [List.filter_eq_nil_iff.mpr, List.map_nil]
    intro j hj
    rw [decide_eq_true_eq]
    intro hnot
    refine hnot ?_
    show j ∈ (List.range ws.length).reverse
    rw [List.mem_reverse]
    exact hj
  rw [hE, List.append_nil]
  refine List.map_congr_left ?_
  intro i hi
  have hi' := List.mem_range.mp hi
  have hnodup : (((diagState ws.length).matchList).map SimPair.refIdx).Nodup := by
    show ((diagMatches ws.length).map SimPair.refIdx).Nodup
    unfold diagMatches
    rw [List.map_map]
    have h : (SimPair.refIdx ∘ fun i => (⟨i, i, 100⟩ : SimPair)) = id := rfl
    rw [h, List.map_id]
    exact List.nodup_range _
  have hmem : (⟨i, i, 100⟩ : SimPair) ∈ (diagState ws.length).matchList := by
    show (⟨i, i, 100⟩ : SimPair) ∈ diagMatches ws.length
    unfold diagMatches
    exact List.mem_map.mpr ⟨i, List.mem_range.mpr hi', rfl⟩
  rcases buildRefEntry_cases (diagState ws.length) i with ⟨p, hpmem, hpi, hbuild⟩ | ⟨hnone, hbuild⟩
  · have hpq : p = ⟨i, i, 100⟩ :=
      List.inj_on_of_nodup_map hnodup hpmem hmem (by rw [hpi])
    rw [hbuild, hpq]
  · exact absurd rfl (hnone ⟨i, i, 100⟩ hmem)

/-- C6: the aggregate score of an empty word-score list is 0; otherwise it
is the rounded arithmetic mean of all entry similarities (Missing and
Extra entries carry similarity 0 and so drag the mean down); and when the
two inputs tokenize to the same nonempty token sequence the aggregate
score is 100. -/
theorem C6_aggregate_score :
    (∀ wordScores : List WordScore,
      (wordScores = [] → overallScoreOf wordScores = 0) ∧
      (wordScores ≠ [] → (overallScoreOf wordScores : ℤ) =
        round (((wordScores.map WordScore.score).sum : ℚ) / wordScores.length))) ∧
    (∀ transcription referenceText : String,
      splitIntoWords transcription = splitIntoWords referenceText →
      splitIntoWords referenceText ≠ [] →
      (calculateLevenshteinScores transcription referenceText).overallScore = 100) := by
  constructor
  · intro wordScores
    constructor
    · rintro rfl
      rfl
    · intro hne
      have hlen : 0 < wordScores.length := List.length_pos.mpr hne
      unfold overallScoreOf
      dsimp only
      rw [if_pos hlen]
      exact mathRoundDiv_eq_round _ _ (by omega)
  · intro transcription referenceText heq hne
    unfold calculateLevenshteinScores
    dsimp only
    rw [heq]
    unfold alignWordsOut
    rw [alignWords_self (splitIntoWords referenceText) hne, List.map_map, List.map_map]
    have hscores : ((List.range (splitIntoWords referenceText).length).map
        (((fun a => (⟨a.refWord, a.spokenWord, a.similarity⟩ : WordScore)) ∘
          entryToWords (splitIntoWords referenceText) (splitIntoWords referenceText)) ∘
            fun i => AEntry.matched i i 100)).map WordScore.score =
        List.replicate (splitIntoWords referenceText).length 100 := by
      rw [List.map_map]
      have h : ∀ i ∈ List.range (splitIntoWords referenceText).length,
          (WordScore.score ∘ (((fun a => (⟨a.refWord, a.spokenWord, a.similarity⟩ : WordScore)) ∘
            entryToWords (splitIntoWords referenceText) (splitIntoWords referenceText)) ∘
              fun i => AEntry.matched i i 100)) i = (fun _ => 100) i := fun i _ => rfl
      rw [List.map_congr_left h, List.map_const']
      rw [List.length_range]
    unfold overallScoreOf
    dsimp only
    rw [hscores, List.length_map, List.length_range]
    have hm0 : (splitIntoWords referenceText).length ≠ 0 :=
      fun h => hne (List.length_eq_zero.mp h)
    rw [if_pos (by omega), List.sum_replicate, smul_eq_mul]
    exact mathRoundDiv_hundred _ hm0

/-- C6 witness: concrete empty, mean, and identical-input cases. -/
theorem C6_witness :
    overallScoreOf [] = 0 ∧
    (overallScoreOf [⟨"a", "a", 100⟩, ⟨"b", "b", 99⟩] : ℤ) =
      round (((([⟨"a", "a", 100⟩, ⟨"b", "b", 99⟩] : List WordScore).map WordScore.score).sum : ℚ) /
        ([⟨"a", "a", 100⟩, ⟨"b", "b", 99⟩] : List WordScore).length) ∧
    (calculateLevenshteinScores "a b" "a b").overallScore = 100 :=
  ⟨(C6_aggregate_score.1 []).1 rfl,
   (C6_aggregate_score.1 [⟨"a", "a", 100⟩, ⟨"b", "b", 99⟩]).2 (by decide),
   C6_aggregate_score.2 "a b" "a b" rfl (by decide)⟩

/-- Valid-range fact for the ASCII lowercase constructor. -/
theorem lower_ofNat_toNat (n : ℕ) (h1 : 97 ≤ n) (h2 : n ≤ 122) : (Char.ofNat n).toNat = n := by
  interval_cases n <;> decide

theorem toLower_eq (c : Char) : Char.toLower c =
    if c.toNat ≥ 65 ∧ c.toNat ≤ 90 then Char.ofNat (c.toNat + 32) else c := rfl

/-- The ASCII case map is idempotent. -/
theorem toLower_toLower (c : Char) : c.toLower.toLower = c.toLower := by
  rw [toLower_eq c]
  by_cases h : c.toNat ≥ 65 ∧ c.toNat ≤ 90
  · rw [if_pos h, toLower_eq]
    have ht : (Char.ofNat (c.toNat + 32)).toNat = c.toNat + 32 :=
      lower_ofNat_toNat _ (by omega) (by omega)
    rw [if_neg (by rw [ht]; omega)]
  · rw [if_neg h, toLower_eq, if_neg h]

/-- The exclusion table's precomposed letters all lie at U+0958-U+095F. -/
theorem nfcDecompositions_first_ge : ∀ e ∈ nfcDecompositions, 0x958 ≤ e.1.toNat := by
  decide

/-- The composition table's base consonants all lie at U+0928 or above. -/
theorem nfcCompositions_first_ge : ∀ e ∈ nfcCompositions, 0x928 ≤ e.1.toNat := by
  decide

/-- Every base consonant produced by a decomposition is NFC-fixed, not a
composable base, and not the nukta. -/
theorem nfcDecompositions_out : ∀ e ∈ nfcDecompositions,
    nfcFixedChar e.2 = true ∧ isCompBase e.2 = false ∧ ¬ e.2 = '़' := by
  decide

/-- Every precomposed letter produced by a composition is NFC-fixed, not a
composable base, and not the nukta. -/
theorem nfcCompositions_out : ∀ e ∈ nfcCompositions,
    nfcFixedChar e.2 = true ∧ isCompBase e.2 = false ∧ ¬ e.2 = '़' := by
  decide

/-- The nukta itself is NFC-fixed and not a composable base. -/
theorem nukta_out : nfcFixedChar '़' = true ∧ isCompBase '़' = false := by
  decide

/-- Characters below the Devanagari nukta block are NFC-fixed. -/
theorem nfcFixedChar_of_lt (c : Char) (h : c.toNat < 0x958) : nfcFixedChar c = true := by
  unfold nfcFixedChar
  have hnone : nfcDecompositions.find? (fun e => decide (e.1 = c)) = none := by
    rw [List.find?_eq_none]
    intro e he
    simp only [decide_eq_true_eq]
    intro hec
    have hge := nfcDecompositions_first_ge e he
    rw [hec] at hge
    omega
  rw [hnone]
  rfl

/-- Characters below न are not composable bases. -/
theorem isCompBase_false_of_lt (c : Char) (h : c.toNat < 0x928) : isCompBase c = false := by
  unfold isCompBase
  have hnone : nfcCompositions.find? (fun e => decide (e.1 = c)) = none := by
    rw [List.find?_eq_none]
    intro e he
    simp only [decide_eq_true_eq]
    intro hec
    have hge := nfcCompositions_first_ge e he
    rw [hec] at hge
    omega
  rw [hnone]
  rfl

/-- Transducer equation: an excluded singleton decomposes. -/
theorem nfcChars_singleton_decomp (c : Char) (e : Char × Char)
    (hfd : nfcDecompositions.find? (fun x => decide (x.1 = c)) = some e) :
    nfcChars [c] = [e.2, '़'] := by
  simp only [nfcChars, hfd]

/-- Transducer equation: a non-excluded singleton passes through. -/
theorem nfcChars_singleton_pass (c : Char)
    (hfd : nfcDecompositions.find? (fun x => decide (x.1 = c)) = none) :
    nfcChars [c] = [c] := by
  simp only [nfcChars, hfd]

/-- Transducer equation: an excluded letter decomposes. -/
theorem nfcChars_cons_decomp (c d : Char) (rest : List Char) (e : Char × Char)
    (hfd : nfcDecompositions.find? (fun x => decide (x.1 = c)) = some e) :
    nfcChars (c :: d :: rest) = e.2 :: '़' :: nfcChars (d :: rest) := by
  simp only [nfcChars, hfd]

/-- Transducer equation: a composable base followed by a nukta composes. -/
theorem nfcChars_cons_comp (c d : Char) (rest : List Char) (e : Char × Char)
    (hfd : nfcDecompositions.find? (fun x => decide (x.1 = c)) = none)
    (hfc : nfcCompositions.find? (fun x => decide (x.1 = c)) = some e)
    (hd : d = '़') :
    nfcChars (c :: d :: rest) = e.2 :: nfcChars rest := by
  simp only [nfcChars, hfd, hfc, if_pos hd]

/-- Transducer equation: a composable base with no following nukta passes
through. -/
theorem nfcChars_cons_comp_no (c d : Char) (rest : List Char) (e : Char × Char)
    (hfd : nfcDecompositions.find? (fun x => decide (x.1 = c)) = none)
    (hfc : nfcCompositions.find? (fun x => decide (x.1 = c)) = some e)
    (hd : ¬ d = '़') :
    nfcChars (c :: d :: rest) = c :: nfcChars (d :: rest) := by
  simp only [nfcChars, hfd, hfc, if_neg hd]

/-- Transducer equation: any other character passes through. -/
theorem nfcChars_cons_pass (c d : Char) (rest : List Char)
    (hfd : nfcDecompositions.find? (fun x => decide (x.1 = c)) = none)
    (hfc : nfcCompositions.find? (fun x => decide (x.1 = c)) = none) :
    nfcChars (c :: d :: rest) = c :: nfcChars (d :: rest) := by
  simp only [nfcChars, hfd, hfc]

/-- Structure of the NFC transducer's output: every emitted character is
NFC-fixed, no composable base consonant is directly followed by a nukta,
and the output starts with a nukta only if the input does (stated with an
explicit length bound to drive strong induction). -/
theorem nfcChars_normal : ∀ (n : ℕ) (l : List Char), l.length ≤ n →
    (∀ c ∈ nfcChars l, nfcFixedChar c = true) ∧
    List.Chain' noCompPair (nfcChars l) ∧
    ((nfcChars l).head? = some '़' → l.head? = some '़') := by
  intro n
  induction n with
  | zero =>
      intro l hl
      have hnil : l = [] := List.eq_nil_of_length_eq_zero (Nat.le_zero.mp hl)
      subst hnil
      refine ⟨?_, ?_, ?_⟩
      · intro c hc
        simp only [nfcChars] at hc
        cases hc
      · exact List.chain'_nil
      · intro hh
        simp only [nfcChars, List.head?_nil] at hh
        exact Option.noConfusion hh
  | succ m ih =>
      intro l hl
      cases l with
      | nil =>
          refine ⟨?_, ?_, ?_⟩
          · intro c hc
            simp only [nfcChars] at hc
            cases hc
          · exact List.chain'_nil
          · intro hh
            simp only [nfcChars, List.head?_nil] at hh
            exact Option.noConfusion hh
      | cons c rest =>
          have hlr : rest.length ≤ m := by
            simp only [List.length_cons] at hl
            omega
          cases rest with
          | nil =>
              rcases hfd : nfcDecompositions.find? (fun x => decide (x.1 = c)) with _ | e
              · rw [nfcChars_singleton_pass c hfd]
                refine ⟨?_, List.chain'_singleton c, fun hh => hh⟩
                intro x hx
                rw [List.mem_singleton] at hx
                subst hx
                unfold nfcFixedChar
                rw [hfd]
                rfl
              · rw [nfcChars_singleton_decomp c e hfd]
                have he := nfcDecompositions_out e (List.mem_of_find?_eq_some hfd)
                refine ⟨?_, ?_, ?_⟩
                · intro x hx
                  rcases List.mem_cons.mp hx with rfl | hx2
                  · exact he.1
                  · rw [List.mem_singleton] at hx2
                    subst hx2
                    exact nukta_out.1
                · refine List.chain'_cons.mpr ⟨?_, List.chain'_singleton _⟩
                  rintro ⟨hb, _⟩
                  rw [he.2.1] at hb
                  cases hb
                · intro hh
                  rw [List.head?_cons, Option.some_inj] at hh
                  exact absurd hh he.2.2
          | cons d rest2 =>
              have hlr2 : rest2.length ≤ m := by
                simp only [List.length_cons] at hlr ⊢
                omega
              obtain ⟨ihm, ihc, ihh⟩ := ih (d :: rest2) hlr
              obtain ⟨ihm2, ihc2, ihh2⟩ := ih rest2 hlr2
              rcases hfd : nfcDecompositions.find? (fun x => decide (x.1 = c)) with _ | e
              · rcases hfc : nfcCompositions.find? (fun x => decide (x.1 = c)) with _ | e2
                · rw [nfcChars_cons_pass c d rest2 hfd hfc]
                  refine ⟨?_, ?_, ?_⟩
                  · intro x hx
                    rcases List.mem_cons.mp hx with rfl | hx2
                    · unfold nfcFixedChar
                      rw [hfd]
                      rfl
                    · exact ihm x hx2
                  · refine List.chain'_cons'.mpr ⟨?_, ihc⟩
                    intro y hy
                    rintro ⟨hb, _⟩
                    unfold isCompBase at hb
                    rw [hfc] at hb
                    cases hb
                  · intro hh
                    rw [List.head?_cons, Option.some_inj] at hh
                    rw [List.head?_cons, hh]
                · by_cases hd : d = '़'
                  · rw [nfcChars_cons_comp c d rest2 e2 hfd hfc hd]
                    have he2 := nfcCompositions_out e2 (List.mem_of_find?_eq_some hfc)
                    refine ⟨?_, ?_, ?_⟩
                    · intro x hx
                      rcases List.mem_cons.mp hx with rfl | hx2
                      · exact he2.1
                      · exact ihm2 x hx2
                    · refine List.chain'_cons'.mpr ⟨?_, ihc2⟩
                      intro y hy
                      rintro ⟨hb, _⟩
                      rw [he2.2.1] at hb
                      cases hb
                    · intro hh
                      rw [List.head?_cons, Option.some_inj] at hh
                      exact absurd hh he2.2.2
                  · rw [nfcChars_cons_comp_no c d rest2 e2 hfd hfc hd]
                    refine ⟨?_, ?_, ?_⟩
                    · intro x hx
                      rcases List.mem_cons.mp hx with rfl | hx2
                      · unfold nfcFixedChar
                        rw [hfd]
                        rfl
                      · exact ihm x hx2
                    · refine List.chain'_cons'.mpr ⟨?_, ihc⟩
                      intro y hy
                      rintro ⟨hb, hnuk⟩
                      subst hnuk
                      have hy' : (nfcChars (d :: rest2)).head? = some '़' :=
                        Option.mem_def.mp hy
                      have hdn := ihh hy'
                      rw [List.head?_cons, Option.some_inj] at hdn
                      exact hd hdn
                    · intro hh
                      rw [List.head?_cons, Option.some_inj] at hh
                      rw [List.head?_cons, hh]
              · rw [nfcChars_cons_decomp c d rest2 e hfd]
                have he := nfcDecompositions_out e (List.mem_of_find?_eq_some hfd)
                refine ⟨?_, ?_, ?_⟩
                · intro x hx
                  rcases List.mem_cons.mp hx with rfl | hx2
                  · exact he.1
                  · rcases List.mem_cons.mp hx2 with rfl | hx3
                    · exact nukta_out.1
                    · exact ihm x hx3
                · refine List.chain'_cons.mpr ⟨?_, ?_⟩
                  · rintro ⟨hb, _⟩
                    rw [he.2.1] at hb
                    cases hb
                  · refine List.chain'_cons'.mpr ⟨?_, ihc⟩
                    intro y hy
                    rintro ⟨hb, _⟩
                    rw [nukta_out.2] at hb
                    cases hb
                · intro hh
                  rw [List.head?_cons, Option.some_inj] at hh
                  exact absurd hh he.2.2

/-- The NFC transducer is the identity on text whose characters are all
NFC-fixed and where no composable base consonant is directly followed by
a nukta. -/
theorem nfcChars_eq_self : ∀ l : List Char, (∀ c ∈ l, nfcFixedChar c = true) →
    List.Chain' noCompPair l → nfcChars l = l := by
  intro l
  induction l with
  | nil => intro _ _; rfl
  | cons c rest ih =>
      intro hfix hch
      have hfd : nfcDecompositions.find? (fun x => decide (x.1 = c)) = none := by
        have hc := hfix c (List.mem_cons_self c rest)
        unfold nfcFixedChar at hc
        exact Option.isNone_iff_eq_none.mp hc
      cases rest with
      | nil => exact nfcChars_singleton_pass c hfd
      | cons d rest2 =>
          rcases hfc : nfcCompositions.find? (fun x => decide (x.1 = c)) with _ | e
          · rw [nfcChars_cons_pass c d rest2 hfd hfc]
            rw [ih (fun x hx => hfix x (List.mem_cons_of_mem c hx))
              (List.chain'_cons'.mp hch).2]
          · have hd : ¬ d = '़' := by
              intro hd
              have hpair : noCompPair c d := (List.chain'_cons.mp hch).1
              refine hpair ⟨?_, hd⟩
              unfold isCompBase
              rw [hfc]
              rfl
            rw [nfcChars_cons_comp_no c d rest2 e hfd hfc hd]
            rw [ih (fun x hx => hfix x (List.mem_cons_of_mem c hx))
              (List.chain'_cons'.mp hch).2]

/-- Lowercasing preserves NFC-fixedness. -/
theorem nfcFixedChar_toLower (c : Char) (h : nfcFixedChar c = true) :
    nfcFixedChar c.toLower = true := by
  rw [toLower_eq c]
  by_cases hu : c.toNat ≥ 65 ∧ c.toNat ≤ 90
  · rw [if_pos hu]
    refine nfcFixedChar_of_lt _ ?_
    have ht : (Char.ofNat (c.toNat + 32)).toNat = c.toNat + 32 :=
      lower_ofNat_toNat _ (by omega) (by omega)
    omega
  · rw [if_neg hu]
    exact h

/-- Lowercasing cannot create a composable base or a nukta, so it
preserves the no-composable-pair relation. -/
theorem noCompPair_toLower (a b : Char) (h : noCompPair a b) :
    noCompPair a.toLower b.toLower := by
  rintro ⟨hb, hn⟩
  refine h ⟨?_, ?_⟩
  · rw [toLower_eq a] at hb
    by_cases hu : a.toNat ≥ 65 ∧ a.toNat ≤ 90
    · rw [if_pos hu] at hb
      have ht : (Char.ofNat (a.toNat + 32)).toNat = a.toNat + 32 :=
        lower_ofNat_toNat _ (by omega) (by omega)
      have hfalse := isCompBase_false_of_lt (Char.ofNat (a.toNat + 32)) (by omega)
      rw [hfalse] at hb
      cases hb
    · rw [if_neg hu] at hb
      exact hb
  · rw [toLower_eq b] at hn
    by_cases hu : b.toNat ≥ 65 ∧ b.toNat ≤ 90
    · rw [if_pos hu] at hn
      have ht : (Char.ofNat (b.toNat + 32)).toNat = b.toNat + 32 :=
        lower_ofNat_toNat _ (by omega) (by omega)
      have hnt := congrArg Char.toNat hn
      rw [ht] at hnt
      have hnukta : ('़').toNat = 0x93C := by decide
      omega
    · rw [if_neg hu] at hn
      exact hn

/-- Punctuation replacement sends characters to themselves or to a space,
preserving the no-composable-pair relation. -/
theorem noCompPair_punct (a b : Char) (h : noCompPair a b) :
    noCompPair (punctToSpace a) (punctToSpace b) := by
  rintro ⟨hb, hn⟩
  unfold punctToSpace at hb hn
  by_cases ha : isPunctChar a
  · rw [if_pos ha] at hb
    rw [show isCompBase ' ' = false by decide] at hb
    cases hb
  · rw [if_neg ha] at hb
    by_cases hbp : isPunctChar b
    · rw [if_pos hbp] at hn
      exact absurd hn (by decide)
    · rw [if_neg hbp] at hn
      exact h ⟨hb, hn⟩

/-- Adjacent-pair relation left by whitespace collapsing: never two
whitespace characters in a row. -/
def noWsRun (a b : Char) : Prop :=
  ¬ (isWsChar a = true ∧ isWsChar b = true)

theorem collapseWsAux_cons_ws_true (c : Char) (r : List Char) (h : isWsChar c = true) :
    collapseWsAux true (c :: r) = collapseWsAux true r := by
  simp [collapseWsAux, h]

theorem collapseWsAux_cons_ws_false (c : Char) (r : List Char) (h : isWsChar c = true) :
    collapseWsAux false (c :: r) = ' ' :: collapseWsAux true r := by
  simp [collapseWsAux, h]

theorem collapseWsAux_cons_not_ws (prev : Bool) (c : Char) (r : List Char)
    (h : isWsChar c = false) :
    collapseWsAux prev (c :: r) = c :: collapseWsAux false r := by
  simp [collapseWsAux, h]

/-- Every character the collapse emits is a space or a non-whitespace
character of the input. -/
theorem mem_collapseWsAux : ∀ (prev : Bool) (l : List Char) (c : Char),
    c ∈ collapseWsAux prev l → c = ' ' ∨ (c ∈ l ∧ isWsChar c = false) := by
  intro prev l
  induction l generalizing prev with
  | nil => intro c hc; cases hc
  | cons x r ih =>
      intro c hc
      by_cases hws : isWsChar x
      · cases prev with
        | true =>
            rw [collapseWsAux_cons_ws_true x r hws] at hc
            rcases ih true c hc with h | h
            · exact Or.inl h
            · exact Or.inr ⟨List.mem_cons_of_mem _ h.1, h.2⟩
        | false =>
            rw [collapseWsAux_cons_ws_false x r hws] at hc
            rcases List.mem_cons.mp hc with rfl | hc2
            · exact Or.inl rfl
            · rcases ih true c hc2 with h | h
              · exact Or.inl h
              · exact Or.inr ⟨List.mem_cons_of_mem _ h.1, h.2⟩
      · have hws' : isWsChar x = false := by
          cases hxx : isWsChar x
          · rfl
          · exact absurd hxx hws
        rw [collapseWsAux_cons_not_ws prev x r hws'] at hc
        rcases List.mem_cons.mp hc with rfl | hc2
        · exact Or.inr ⟨List.mem_cons_self _ _, hws'⟩
        · rcases ih false c hc2 with h | h
          · exact Or.inl h
          · exact Or.inr ⟨List.mem_cons_of_mem _ h.1, h.2⟩

/-- Collapsing leaves no two adjacent whitespace characters, and in
flag-true state the first emitted character is never whitespace. -/
theorem collapse_chain : ∀ l : List Char,
    List.Chain' noWsRun (collapseWsAux true l) ∧
    List.Chain' noWsRun (collapseWsAux false l) ∧
    (∀ c, (collapseWsAux true l).head? = some c → isWsChar c = false) := by
  intro l
  induction l with
  | nil => exact ⟨List.chain'_nil, List.chain'_nil, fun c hc => by cases hc⟩
  | cons x r ih =>
      obtain ⟨ih1, ih0, ihhd⟩ := ih
      by_cases hws : isWsChar x
      · refine ⟨?_, ?_, ?_⟩
        · rw [collapseWsAux_cons_ws_true x r hws]
          exact ih1
        · rw [collapseWsAux_cons_ws_false x r hws]
          refine List.chain'_cons'.mpr ⟨?_, ih1⟩
          intro y hy
          have hyw := ihhd y hy
          unfold noWsRun
          rw [hyw]
          simp
        · rw [collapseWsAux_cons_ws_true x r hws]
          exact ihhd
      · have hws' : isWsChar x = false := by
          cases hxx : isWsChar x
          · rfl
          · exact absurd hxx hws
        refine ⟨?_, ?_, ?_⟩
        · rw [collapseWsAux_cons_not_ws true x r hws']
          refine List.chain'_cons'.mpr ⟨?_, ih0⟩
          intro y _
          unfold noWsRun
          rw [hws']
          simp
        · rw [collapseWsAux_cons_not_ws false x r hws']
          refine List.chain'_cons'.mpr ⟨?_, ih0⟩
          intro y _
          unfold noWsRun
          rw [hws']
          simp
        · rw [collapseWsAux_cons_not_ws true x r hws']
          intro c hc
          rw [List.head?_cons, Option.some_inj] at hc
          rw [← hc]
          exact hws'

theorem collapseWsAux_true_eq_false (l : List Char)
    (h : ∀ c, l.head? = some c → isWsChar c = false) :
    collapseWsAux true l = collapseWsAux false l := by
  cases l with
  | nil => rfl
  | cons y t =>
      have hy := h y rfl
      rw [collapseWsAux_cons_not_ws true y t hy, collapseWsAux_cons_not_ws false y t hy]

/-- Collapsing is the identity on text with no adjacent whitespace runs
whose whitespace is all plain spaces. -/
theorem collapse_eq_self : ∀ l : List Char, List.Chain' noWsRun l →
    (∀ c ∈ l, isWsChar c = true → c = ' ') → collapseWs l = l := by
  intro l
  induction l with
  | nil => intro _ _; rfl
  | cons x r ih =>
      intro hchain hsp
      unfold collapseWs at *
      by_cases hws : isWsChar x
      · have hx : x = ' ' := hsp x (List.mem_cons_self x r) hws
        rw [collapseWsAux_cons_ws_false x r hws]
        have hhd : ∀ c, r.head? = some c → isWsChar c = false := by
          intro c hc
          cases r with
          | nil => cases hc
          | cons y t =>
              rw [List.head?_cons, Option.some_inj] at hc
              have hxy : noWsRun x y := (List.chain'_cons.mp hchain).1
              unfold noWsRun at hxy
              rw [← hc]
              cases hyy : isWsChar y
              · rfl
              · exact absurd ⟨hws, hyy⟩ hxy
        rw [collapseWsAux_true_eq_false r hhd,
          ih ((List.chain'_cons'.mp hchain).2) (fun c hc h => hsp c (List.mem_cons_of_mem _ hc) h),
          hx]
      · have hws' : isWsChar x = false := by
          cases hxx : isWsChar x
          · rfl
          · exact absurd hxx hws
        rw [collapseWsAux_cons_not_ws false x r hws',
          ih ((List.chain'_cons'.mp hchain).2) (fun c hc h => hsp c (List.mem_cons_of_mem _ hc) h)]

/-- The front of a right-trimmed list is the front of the list, so a list
with no leading whitespace keeps having none. -/
theorem dropWhile_rdropWhile_fix (a : List Char) (ha : a.dropWhile isWsChar = a) :
    (a.rdropWhile isWsChar).dropWhile isWsChar = a.rdropWhile isWsChar := by
  rw [List.dropWhile_eq_self_iff]
  intro hl
  obtain ⟨t, ht⟩ := List.rdropWhile_prefix isWsChar a
  have hlen : 0 < a.length := by
    rw [← ht, List.length_append]
    omega
  have h0 : (a.rdropWhile isWsChar).get? 0 = a.get? 0 := by
    conv_rhs => rw [← ht]
    exact (List.get?_append hl).symm
  rw [List.get?_eq_get hl, List.get?_eq_get hlen] at h0
  rw [Option.some_inj.mp h0]
  exact List.dropWhile_eq_self_iff.mp ha hlen

/-- Trimming is idempotent. -/
theorem trimChars_trimChars (l : List Char) : trimChars (trimChars l) = trimChars l := by
  unfold trimChars
  rw [dropWhile_rdropWhile_fix (l.dropWhile isWsChar) (List.dropWhile_idempotent isWsChar l)]
  exact List.rdropWhile_idempotent isWsChar (l.dropWhile isWsChar)

theorem trimChars_sublist (l : List Char) : (trimChars l).Sublist l := by
  unfold trimChars
  exact (( List.rdropWhile_prefix _ _).sublist).trans (List.dropWhile_sublist _)

theorem trimChars_chain (l : List Char) (h : List.Chain' noWsRun l) :
    List.Chain' noWsRun (trimChars l) := by
  unfold trimChars
  refine List.Chain'.prefix ?_ ( List.rdropWhile_prefix _ _)
  exact List.Chain'.suffix h (List.dropWhile_suffix _)

/-- Trimming preserves any adjacent-pair relation: the trimmed list is a
contiguous segment of the original. -/
theorem trimChars_chain_rel (R : Char → Char → Prop) (l : List Char)
    (h : List.Chain' R l) : List.Chain' R (trimChars l) := by
  unfold trimChars
  refine List.Chain'.prefix ?_ ( List.rdropWhile_prefix _ _)
  exact List.Chain'.suffix h (List.dropWhile_suffix _)

/-- Whitespace collapsing preserves any adjacent-pair relation for which a
plain space is unconstrained on either side: every adjacent pair of the
output either involves the inserted space or was adjacent in the input. -/
theorem collapse_chain_rel (R : Char → Char → Prop)
    (hsp1 : ∀ a, R a ' ') (hsp2 : ∀ b, R ' ' b) :
    ∀ l : List Char, List.Chain' R l →
      (∀ prev, List.Chain' R (collapseWsAux prev l)) ∧
      (∀ y, (collapseWsAux false l).head? = some y → y = ' ' ∨ l.head? = some y) := by
  intro l
  induction l with
  | nil =>
      intro hch
      refine ⟨fun prev => ?_, fun y hy => by cases hy⟩
      cases prev <;> exact List.chain'_nil
  | cons x r ih =>
      intro hch
      have hchr : List.Chain' R r := (List.chain'_cons'.mp hch).2
      obtain ⟨ihc, ihh⟩ := ih hchr
      by_cases hws : isWsChar x
      · constructor
        · intro prev
          cases prev with
          | true =>
              rw [collapseWsAux_cons_ws_true x r hws]
              exact ihc true
          | false =>
              rw [collapseWsAux_cons_ws_false x r hws]
              refine List.chain'_cons'.mpr ⟨fun y _ => hsp2 y, ihc true⟩
        · intro y hy
          rw [collapseWsAux_cons_ws_false x r hws] at hy
          rw [List.head?_cons, Option.some_inj] at hy
          exact Or.inl hy.symm
      · have hws' : isWsChar x = false := by
          cases hxx : isWsChar x
          · rfl
          · exact absurd hxx hws
        constructor
        · intro prev
          rw [collapseWsAux_cons_not_ws prev x r hws']
          refine List.chain'_cons'.mpr ⟨?_, ihc false⟩
          intro y hy
          have hy' : (collapseWsAux false r).head? = some y := Option.mem_def.mp hy
          rcases ihh y hy' with rfl | hhd
          · exact hsp1 x
          · exact (List.chain'_cons'.mp hch).1 y (Option.mem_def.mpr hhd)
        · intro y hy
          rw [collapseWsAux_cons_not_ws false x r hws'] at hy
          rw [List.head?_cons, Option.some_inj] at hy
          refine Or.inr ?_
          rw [List.head?_cons, hy]

theorem mem_collapseWs (l : List Char) (c : Char) (hc : c ∈ collapseWs l) :
    c = ' ' ∨ (c ∈ l ∧ isWsChar c = false) :=
  mem_collapseWsAux false l c hc

/-- Every character of a normalized text is NFC-fixed, lowercase-fixed,
not punctuation, and a plain space if whitespace at all. -/
theorem normalizeChars_mem (x : List Char) :
    ∀ c ∈ normalizeChars x, nfcFixedChar c = true ∧ Char.toLower c = c ∧
      isPunctChar c = false ∧ (isWsChar c = true → c = ' ') := by
  intro c hc
  unfold normalizeChars at hc
  have hc2 : c ∈ collapseWs (((nfcChars x).map Char.toLower).map punctToSpace) :=
    (trimChars_sublist _).subset hc
  rcases mem_collapseWs _ c hc2 with rfl | ⟨hz, hnws⟩
  · exact ⟨by decide, by decide, by decide, fun _ => rfl⟩
  · obtain ⟨d, hd, rfl⟩ := List.mem_map.mp hz
    obtain ⟨e, he2, rfl⟩ := List.mem_map.mp hd
    by_cases hp : isPunctChar (Char.toLower e)
    · exfalso
      have hsp : punctToSpace e.toLower = ' ' := by
        unfold punctToSpace
        rw [if_pos hp]
      rw [hsp] at hnws
      exact absurd hnws (by decide)
    · have hcp : punctToSpace e.toLower = e.toLower := by
        unfold punctToSpace
        rw [if_neg hp]
      rw [hcp] at hnws ⊢
      have hpf : isPunctChar e.toLower = false := by
        cases hpp : isPunctChar e.toLower
        · rfl
        · exact absurd hpp hp
      have hefix : nfcFixedChar e = true :=
        (nfcChars_normal x.length x le_rfl).1 e he2
      refine ⟨nfcFixedChar_toLower e hefix, toLower_toLower e, hpf, ?_⟩
      intro hws
      rw [hws] at hnws
      cases hnws

theorem normalizeChars_chain (x : List Char) : List.Chain' noWsRun (normalizeChars x) := by
  unfold normalizeChars
  exact trimChars_chain _ ((collapse_chain _).2.1)

/-- Normalized text never has a composable base consonant directly
followed by a nukta, so the NFC pass of a second normalization composes
nothing: the only whitespace the collapse inserts is a plain space, which
is neither a base nor a nukta, and two non-space characters adjacent
after collapsing and trimming were already adjacent in the transducer's
output. -/
theorem normalizeChars_comp_chain (x : List Char) :
    List.Chain' noCompPair (normalizeChars x) := by
  have h0 : List.Chain' noCompPair (nfcChars x) := (nfcChars_normal x.length x le_rfl).2.1
  have h1 : List.Chain' noCompPair ((nfcChars x).map Char.toLower) := by
    rw [List.chain'_map]
    exact h0.imp (fun a b ha => noCompPair_toLower a b ha)
  have h2 : List.Chain' noCompPair (((nfcChars x).map Char.toLower).map punctToSpace) := by
    rw [List.chain'_map]
    exact h1.imp (fun a b ha => noCompPair_punct a b ha)
  have hsp1 : ∀ a : Char, noCompPair a ' ' := by
    intro a
    rintro ⟨_, hn⟩
    exact absurd hn (by decide)
  have hsp2 : ∀ b : Char, noCompPair ' ' b := by
    intro b
    rintro ⟨hb, _⟩
    rw [show isCompBase ' ' = false by decide] at hb
    cases hb
  have h3 := (collapse_chain_rel noCompPair hsp1 hsp2 _ h2).1 false
  unfold normalizeChars
  exact trimChars_chain_rel _ _ h3

/-- The character pipeline of `normalizeText` is idempotent. -/
theorem normalizeChars_idem (x : List Char) :
    normalizeChars (normalizeChars x) = normalizeChars x := by
  have hmemP := normalizeChars_mem x
  have ha : nfcChars (normalizeChars x) = normalizeChars x :=
    nfcChars_eq_self _ (fun c hc => (hmemP c hc).1) (normalizeChars_comp_chain x)
  have hb : (normalizeChars x).map Char.toLower = normalizeChars x := by
    calc (normalizeChars x).map Char.toLower
        = (normalizeChars x).map id := List.map_congr_left (fun c hc => (hmemP c hc).2.1)
      _ = normalizeChars x := List.map_id _
  have hpunct : (normalizeChars x).map punctToSpace = normalizeChars x := by
    calc (normalizeChars x).map punctToSpace
        = (normalizeChars x).map id := by
          refine List.map_congr_left ?_
          intro c hc
          show punctToSpace c = c
          unfold punctToSpace
          rw [(hmemP c hc).2.2.1]
          simp
      _ = normalizeChars x := List.map_id _
  have hcollapse : collapseWs (normalizeChars x) = normalizeChars x :=
    collapse_eq_self _ (normalizeChars_chain x) (fun c hc h => (hmemP c hc).2.2.2 h)
  have htrim : trimChars (normalizeChars x) = normalizeChars x := by
    unfold normalizeChars
    exact trimChars_trimChars _
  show trimChars (collapseWs (((nfcChars (normalizeChars x)).map Char.toLower).map
    punctToSpace)) = normalizeChars x
  rw [ha, hb, hpunct, hcollapse, htrim]

/-- C8: normalization is idempotent — normalizing an already normalized
string changes nothing — and consequently tokenizing an already-normalized
string yields the same token sequence as tokenizing the original. -/
theorem C8_normalize_idempotent (x : String) :
    normalizeText (normalizeText x) = normalizeText x ∧
    splitIntoWords (normalizeText x) = splitIntoWords x := by
  have h1 : ∀ y : String, (normalizeText y).data = normalizeChars y.data := fun y => rfl
  have hidem : (normalizeText (normalizeText x)).data = (normalizeText x).data := by
    rw [h1, h1]
    exact normalizeChars_idem x.data
  constructor
  · exact String.ext hidem
  · unfold splitIntoWords
    rw [hidem]
